import Mathlib

/-!
Shallow embedding of the `find_large` scanner core (beecave-homelab/find-large).

Paths are modelled as lists of path components: the absolute path `/a/b` is
`["a", "b"]` and the filesystem root `/` is `[]`.  This is the canonical form
produced by `os.walk` when started from an absolute, normalised search
directory (the CLI resolves the directory with `resolve_path=True`), so
`os.path.abspath` is the identity on these paths, `os.path.dirname` is
`List.dropLast`, and `os.path.basename` is the last component.  Component
names are nonempty and contain no separator, so the number of `os.sep`
occurrences in the rendered string of a path `p` is `max 1 p.length`.

The filesystem itself is a finite tree whose files carry `Option Nat` sizes:
`some s` models a successful `os.path.getsize` returning `s`, and `none`
models a per-entry `OSError`/`FileNotFoundError` raised by the stat call.
-/

/-- Python `s.startswith(pre)`: `pre` is a character-wise prefix of `s`. -/
def strStartsWith (s pre : String) : Bool := pre.data.isPrefixOf s.data

/-- Python `name.startswith(".")`, the hidden-entry test used by the scanners. -/
def strHidden (s : String) : Bool := strStartsWith s "."

/-- Absolute paths as lists of components (see module comment). -/
abbrev FPath := List String

/-- Joins components with `/` separators (no leading separator). -/
def joinComponents : FPath → String
  | [] => ""
  | [n] => n
  | n :: rest => n ++ "/" ++ joinComponents rest

/-- Rendered absolute-path string of a component path: `/` for the root,
otherwise `/` followed by the `/`-joined components. -/
def renderPath (p : FPath) : String :=
  match p with
  | [] => "/"
  | _ => "/" ++ joinComponents p

/-- Number of `os.sep` occurrences in the rendered absolute path: the root `/`
has one separator, `/a` has one, `/a/b` has two. -/
def sepCount (p : FPath) : Nat := max 1 p.length

/-- Python `os.path.dirname` on rendered absolute paths: drops the final
component; the root is its own parent (`dirname("/") == "/"`). -/
def parentPath (p : FPath) : FPath := p.dropLast

/-- Python `os.path.basename` on rendered absolute paths, `""` for the root. -/
def baseName (p : FPath) : String := p.getLast?.getD ""

/-- Value of `INCLUDE_HIDDEN_FOLDERS` in `find_large/constants.py`. -/
def INCLUDE_HIDDEN_FOLDERS : List String := [".git", ".config", ".huggingface", ".local"]

/-- Per-scanner configuration data consumed by `should_skip_path`:
`includeHiddenNames` models `INCLUDE_HIDDEN_FOLDERS` and `excludeFolders`
models `self.exclude_folders_abs` (already absolute, as component paths). -/
structure ScanConfig where
  includeHiddenNames : List String
  excludeFolders : List FPath

/-- Embedding of `SizeScannerBase.should_skip_path` (`find_large/core.py`):
skip when the basename is hidden and not exempted, or when the absolute path
string starts (raw string prefix, `str.startswith`) with one of the excluded
absolute path strings. -/
def should_skip_path (cfg : ScanConfig) (p : FPath) : Bool :=
  (strHidden (baseName p) && !(cfg.includeHiddenNames.contains (baseName p)))
    || cfg.excludeFolders.any (fun e => strStartsWith (renderPath p) (renderPath e))

/-- A directory tree: named files with `Option Nat` stat results, and named
subdirectories. -/
inductive FSTree where
  | node (files : List (String × Option Nat)) (subdirs : List (String × FSTree))

/-- Pairwise distinctness of the names in a directory listing (a real
filesystem never lists two children with the same name). -/
def namesNodup {α : Type} : List (String × α) → Bool
  | [] => true
  | (n, _) :: rest => !(rest.any (fun x => x.1 == n)) && namesNodup rest

mutual

/-- Well-formedness of a tree: every directory's file names and subdirectory
names are distinct, recursively. -/
def treeWF : FSTree → Bool
  | .node files subdirs => namesNodup files && namesNodup subdirs && treeWFList subdirs

def treeWFList : List (String × FSTree) → Bool
  | [] => true
  | (_, c) :: rest => treeWF c && treeWFList rest

end

/-- Sum of the sizes of the immediate non-hidden files whose stat succeeds:
the `dir_size` loop of `DirectoryScanner.scan` (hidden files are skipped, a
stat error is caught and skipped). -/
def directSize : List (String × Option Nat) → Nat
  | [] => 0
  | (n, st) :: rest =>
    (if strHidden n then 0
     else match st with
          | some s => s
          | none => 0) + directSize rest

mutual

/-- Walk phase of `DirectoryScanner.scan`: the `os.walk` loop producing
`self.dir_sizes` in visit (insertion) order.  A directory failing
`should_skip_path` is pruned (`dirs[:] = []; continue`): it gets no table
entry and its children are not visited.  Otherwise its direct size is stored
and the walk descends into its non-hidden-named subdirectories. -/
def walkDirs (cfg : ScanConfig) (p : FPath) : FSTree → List (FPath × Nat)
  | .node files subdirs =>
    if should_skip_path cfg p then []
    else (p, directSize files) :: walkDirsList cfg p subdirs

def walkDirsList (cfg : ScanConfig) (p : FPath) : List (String × FSTree) → List (FPath × Nat)
  | [] => []
  | (n, c) :: rest =>
    (if strHidden n then [] else walkDirs cfg (p ++ [n]) c) ++ walkDirsList cfg p rest

end

/-- Lookup of `dir_sizes[p]` in the association-list model of the dict. -/
def lookupTable (t : List (FPath × Nat)) (p : FPath) : Option Nat :=
  match t.find? (fun e => e.1 == p) with
  | some e => some e.2
  | none => none

/-- Python `p in dir_sizes`. -/
def containsKey (t : List (FPath × Nat)) (p : FPath) : Bool := t.any (fun e => e.1 == p)

/-- Python `dir_sizes[p] += v` (keys are distinct in the dict, so updating
every matching entry is the same update). -/
def bumpValue (t : List (FPath × Nat)) (p : FPath) (v : Nat) : List (FPath × Nat) :=
  t.map (fun e => if e.1 == p then (e.1, e.2 + v) else e)

/-- One iteration of the rollup loop of `DirectoryScanner.scan`: read the
current value of `dir_sizes[p]` and add it into the parent's entry when the
parent is in the table. -/
def rollupStep (t : List (FPath × Nat)) (p : FPath) : List (FPath × Nat) :=
  match lookupTable t p with
  | some v => if containsKey t (parentPath p) then bumpValue t (parentPath p) v else t
  | none => t

/-- Python `sorted(keys, key=lambda p: p.count(os.sep), reverse=True)`: a
stable descending sort by separator count.  A stable sort's output is
uniquely determined by the key function and the input order, so the
structurally recursive `List.insertionSort` (which is stable) computes the
same list as Python's sort. -/
def depthDescOrder (ps : List FPath) : List FPath :=
  List.insertionSort (fun a b => sepCount b ≤ sepCount a) ps

/-- Rollup phase of `DirectoryScanner.scan`: fold the rollup step over the
table keys in descending separator-count order. -/
def rollupPass (t : List (FPath × Nat)) : List (FPath × Nat) :=
  (depthDescOrder (t.map (fun e => e.1))).foldl rollupStep t

/-- The directory-size table after the walk and the rollup pass. -/
def dirScanTable (cfg : ScanConfig) (p₀ : FPath) (t : FSTree) : List (FPath × Nat) :=
  rollupPass (walkDirs cfg p₀ t)

/-- Directory-mode `items_list`: table entries meeting the size threshold, in
table (visit) order. -/
def dirItemsList (cfg : ScanConfig) (th : Nat) (p₀ : FPath) (t : FSTree) : List (FPath × Nat) :=
  (dirScanTable cfg p₀ t).filter (fun e => th ≤ e.2)

/-- Test used by `_calculate_total_bytes` for one already-counted path:
`abs_path == parent or abs_path.startswith(parent + os.sep)`.  On rendered
component paths this is `par == p` or, for nonempty `par`, `par` being a
component-wise prefix of `p` (for `par = []` the string test appends a second
separator, `"//"`, which no rendered path starts with). -/
def countedBlocks (par p : FPath) : Bool :=
  par == p || (!par.isEmpty && par.isPrefixOf p)

/-- Loop of `DirectoryScanner._calculate_total_bytes` over the sorted items,
threading the `counted_paths` accumulator. -/
def totalGo : List (FPath × Nat) → List FPath → Nat
  | [], _ => 0
  | (p, s) :: rest, counted =>
    if counted.any (fun par => countedBlocks par p) then totalGo rest counted
    else s + totalGo rest (counted ++ [p])

/-- Embedding of `DirectoryScanner._calculate_total_bytes`: sort the items by
ascending separator count (Python's stable sort, hence stable
`insertionSort`), then count each item unless an already-counted path equals
it or is an ancestor of it. -/
def calculate_total_bytes (items : List (FPath × Nat)) : Nat :=
  totalGo (List.insertionSort (fun a b => sepCount a.1 ≤ sepCount b.1) items) []

/-- File entries collected from one directory's `files` listing by
`FileScanner.scan`: hidden names are skipped, a stat error is caught and
skipped, and an entry is appended exactly when its size reaches the
threshold. -/
def fileEntries (th : Nat) (p : FPath) : List (String × Option Nat) → List (FPath × Nat)
  | [] => []
  | (n, st) :: rest =>
    (if strHidden n then []
     else match st with
          | none => []
          | some s => if th ≤ s then [(p ++ [n], s)] else []) ++ fileEntries th p rest

mutual

/-- Embedding of `FileScanner.scan` (`find_large/files/scanner.py`), collecting
`items_list`: prune directories failing `should_skip_path`, list this
directory's qualifying files, then descend into non-hidden-named
subdirectories (top-down `os.walk` order). -/
def scanFiles (cfg : ScanConfig) (th : Nat) (p : FPath) : FSTree → List (FPath × Nat)
  | .node files subdirs =>
    if should_skip_path cfg p then []
    else fileEntries th p files ++ scanFilesList cfg th p subdirs

def scanFilesList (cfg : ScanConfig) (th : Nat) (p : FPath) :
    List (String × FSTree) → List (FPath × Nat)
  | [] => []
  | (n, c) :: rest =>
    (if strHidden n then [] else scanFiles cfg th (p ++ [n]) c) ++ scanFilesList cfg th p rest

end

/-- Running total accumulated by the `total_bytes += size_bytes` statement in
the file loop of `FileScanner.scan`. -/
def fileEntriesTotal (th : Nat) : List (String × Option Nat) → Nat
  | [] => 0
  | (n, st) :: rest =>
    (if strHidden n then 0
     else match st with
          | none => 0
          | some s => if th ≤ s then s else 0) + fileEntriesTotal th rest

mutual

/-- The `total_bytes` value produced by `FileScanner.scan`, accumulated along
the same traversal as `items_list`. -/
def scanFilesTotal (cfg : ScanConfig) (th : Nat) (p : FPath) : FSTree → Nat
  | .node files subdirs =>
    if should_skip_path cfg p then 0
    else fileEntriesTotal th files + scanFilesTotalList cfg th p subdirs

def scanFilesTotalList (cfg : ScanConfig) (th : Nat) (p : FPath) :
    List (String × FSTree) → Nat
  | [] => 0
  | (n, c) :: rest =>
    (if strHidden n then 0 else scanFilesTotal cfg th (p ++ [n]) c)
      + scanFilesTotalList cfg th p rest

end

/-- Value of `VideoScanner.VIDEO_EXTENSIONS` (`find_large/videos/scanner.py`). -/
def VIDEO_EXTENSIONS : List String :=
  [".mp4", ".mkv", ".avi", ".mov", ".wmv", ".flv", ".webm", ".m4v", ".mpg", ".mpeg",
   ".3gp", ".3g2", ".m2ts", ".mts", ".ts", ".vob", ".ogv", ".rm", ".rmvb", ".asf", ".divx"]

/-- ASCII lowering of one character, the behaviour of Python `str.lower` on
the ASCII extension strings compared here. -/
def asciiLower (c : Char) : Char :=
  if 'A' ≤ c ∧ c ≤ 'Z' then Char.ofNat (c.toNat + 32) else c

/-- Extension part of `os.path.splitext` on a separator-free filename: the
suffix starting at the last `.`, except that it is empty when the filename
has no dot or when every character before the last dot is itself a dot
(CPython `genericpath._splitext` skips leading dots, so `".mkv"` has no
extension). -/
def splitextExtension (cs : List Char) : List Char :=
  let rev := cs.reverse
  let afterDotRev := rev.takeWhile (fun c => !(c == '.'))
  match rev.drop afterDotRev.length with
  | [] => []
  | _ :: beforeRev =>
    if beforeRev.any (fun c => !(c == '.')) then '.' :: afterDotRev.reverse
    else []

/-- Embedding of `VideoScanner.is_video_file`:
`os.path.splitext(filename)[1].lower() in self.VIDEO_EXTENSIONS`. -/
def is_video_file (filename : String) : Bool :=
  VIDEO_EXTENSIONS.contains (String.mk ((splitextExtension filename.data).map asciiLower))

/-- Video entries collected from one directory's listing by
`VideoScanner.scan`: like the file loop, but names failing `is_video_file`
are skipped as well. -/
def videoEntries (th : Nat) (p : FPath) : List (String × Option Nat) → List (FPath × Nat)
  | [] => []
  | (n, st) :: rest =>
    (if strHidden n || !is_video_file n then []
     else match st with
          | none => []
          | some s => if th ≤ s then [(p ++ [n], s)] else []) ++ videoEntries th p rest

mutual

/-- Embedding of `VideoScanner.scan` (`find_large/videos/scanner.py`),
collecting `items_list`. -/
def scanVideos (cfg : ScanConfig) (th : Nat) (p : FPath) : FSTree → List (FPath × Nat)
  | .node files subdirs =>
    if should_skip_path cfg p then []
    else videoEntries th p files ++ scanVideosList cfg th p subdirs

def scanVideosList (cfg : ScanConfig) (th : Nat) (p : FPath) :
    List (String × FSTree) → List (FPath × Nat)
  | [] => []
  | (n, c) :: rest =>
    (if strHidden n then [] else scanVideos cfg th (p ++ [n]) c) ++ scanVideosList cfg th p rest

end

/-- Abort value for an exception escaping the per-entry handler: the
`AttributeError` raised by reading the undefined `self.MB_TO_BYTES`. -/
inductive ScanAbort where
  | attributeError
deriving DecidableEq

/-- Attribute names available on a `FileScanner`/`VideoScanner` instance:
the instance attributes set in `SizeScannerBase.__init__` (`core.py`) plus
the `VIDEO_EXTENSIONS` class attribute of `VideoScanner`.  `MB_TO_BYTES` is a
module-level constant in `constants.py` and is not among them, so the
attribute lookup `self.MB_TO_BYTES` fails. -/
def scannerAttributes : List String :=
  ["search_dir", "size_mb", "output_file", "size_unit", "no_size", "no_table", "verbose",
   "size_bytes_threshold", "items_list", "total_bytes", "exclude_folders_abs",
   "VIDEO_EXTENSIONS", "dir_sizes"]

/-- Building the verbose debug message for a found large entry evaluates the
f-string `f"... ({size_bytes / self.MB_TO_BYTES:.2f} MB)"`, whose attribute
lookup raises `AttributeError`; with verbose off the message is not built. -/
def verboseLogLargeEntry (verbose : Bool) : Except ScanAbort Unit :=
  if verbose && !(scannerAttributes.contains "MB_TO_BYTES") then .error .attributeError
  else .ok ()

/-- File loop of `FileScanner.scan` with the verbose logging modelled: the
per-entry handler catches only `OSError`/`FileNotFoundError` (the `none`
stat), so the `AttributeError` from the verbose branch escapes and aborts,
before the entry is appended. -/
def fileEntriesE (verbose : Bool) (th : Nat) (p : FPath) :
    List (String × Option Nat) → Except ScanAbort (List (FPath × Nat))
  | [] => .ok []
  | (n, st) :: rest =>
    if strHidden n then fileEntriesE verbose th p rest
    else match st with
      | none => fileEntriesE verbose th p rest
      | some s =>
        if th ≤ s then
          match verboseLogLargeEntry verbose with
          | .error e => .error e
          | .ok _ =>
            match fileEntriesE verbose th p rest with
            | .error e => .error e
            | .ok r => .ok ((p ++ [n], s) :: r)
        else fileEntriesE verbose th p rest

mutual

/-- Embedding of `FileScanner.scan` with its verbose-mode failure behaviour:
an `AttributeError` escaping the walk reaches the outer `except Exception`
and aborts the whole scan. -/
def scanFilesE (cfg : ScanConfig) (verbose : Bool) (th : Nat) (p : FPath) :
    FSTree → Except ScanAbort (List (FPath × Nat))
  | .node files subdirs =>
    if should_skip_path cfg p then .ok []
    else
      match fileEntriesE verbose th p files with
      | .error e => .error e
      | .ok here =>
        match scanFilesListE cfg verbose th p subdirs with
        | .error e => .error e
        | .ok below => .ok (here ++ below)

def scanFilesListE (cfg : ScanConfig) (verbose : Bool) (th : Nat) (p : FPath) :
    List (String × FSTree) → Except ScanAbort (List (FPath × Nat))
  | [] => .ok []
  | (n, c) :: rest =>
    match (if strHidden n then .ok [] else scanFilesE cfg verbose th (p ++ [n]) c) with
    | .error e => .error e
    | .ok here =>
      match scanFilesListE cfg verbose th p rest with
      | .error e => .error e
      | .ok below => .ok (here ++ below)

end

/-- Video loop of `VideoScanner.scan` with the verbose logging modelled (the
same undefined `self.MB_TO_BYTES` appears in its debug f-string). -/
def videoEntriesE (verbose : Bool) (th : Nat) (p : FPath) :
    List (String × Option Nat) → Except ScanAbort (List (FPath × Nat))
  | [] => .ok []
  | (n, st) :: rest =>
    if strHidden n || !is_video_file n then videoEntriesE verbose th p rest
    else match st with
      | none => videoEntriesE verbose th p rest
      | some s =>
        if th ≤ s then
          match verboseLogLargeEntry verbose with
          | .error e => .error e
          | .ok _ =>
            match videoEntriesE verbose th p rest with
            | .error e => .error e
            | .ok r => .ok ((p ++ [n], s) :: r)
        else videoEntriesE verbose th p rest

mutual

/-- Embedding of `VideoScanner.scan` with its verbose-mode failure behaviour. -/
def scanVideosE (cfg : ScanConfig) (verbose : Bool) (th : Nat) (p : FPath) :
    FSTree → Except ScanAbort (List (FPath × Nat))
  | .node files subdirs =>
    if should_skip_path cfg p then .ok []
    else
      match videoEntriesE verbose th p files with
      | .error e => .error e
      | .ok here =>
        match scanVideosListE cfg verbose th p subdirs with
        | .error e => .error e
        | .ok below => .ok (here ++ below)

def scanVideosListE (cfg : ScanConfig) (verbose : Bool) (th : Nat) (p : FPath) :
    List (String × FSTree) → Except ScanAbort (List (FPath × Nat))
  | [] => .ok []
  | (n, c) :: rest =>
    match (if strHidden n then .ok [] else scanVideosE cfg verbose th (p ++ [n]) c) with
    | .error e => .error e
    | .ok here =>
      match scanVideosListE cfg verbose th p rest with
      | .error e => .error e
      | .ok below => .ok (here ++ below)

end

mutual

/-- The same tree with every inaccessible file entry (failing stat) removed:
the comparison point for per-entry error recovery. -/
def pruneFailed : FSTree → FSTree
  | .node files subdirs => .node (files.filter (fun f => f.2.isSome)) (pruneFailedList subdirs)

def pruneFailedList : List (String × FSTree) → List (String × FSTree)
  | [] => []
  | (n, c) :: rest => (n, pruneFailed c) :: pruneFailedList rest

end

/-- Display size units (`SIZE_UNIT_GB` / `SIZE_UNIT_MB` in `constants.py`). -/
inductive SizeUnit where
  | gb
  | mb
deriving DecidableEq

/-- Value of `DEFAULT_SIZE_GB` in `constants.py`. -/
def DEFAULT_SIZE_GB : ℚ := 1

/-- Embedding of `validate_size_options` (`find_large/cli.py`).  The CLI float
options are modelled as rationals (the only arithmetic performed on them is
the exact-by-scaling `size_gb * 1024`); `click.Abort` is the `error`
constructor, raised before any scanner is constructed. -/
def validate_size_options (size_gb size_mb : Option ℚ) : Except String (ℚ × SizeUnit) :=
  if size_gb.isSome && size_mb.isSome then
    .error "You cannot use both --size-in-gb and --size-in-mb at the same time."
  else if (match size_gb with | some g => decide (g ≤ 0) | none => false) then
    .error "Size in GB must be greater than 0."
  else if (match size_mb with | some m => decide (m ≤ 0) | none => false) then
    .error "Size in MB must be greater than 0."
  else
    match size_gb, size_mb with
    | some g, _ => .ok (g * 1024, .gb)
    | none, some m => .ok (m, .mb)
    | none, none => .ok (DEFAULT_SIZE_GB * 1024, .gb)

/-- Byte threshold computed in `SizeScannerBase.__init__`:
`int(size_mb * MB_TO_BYTES)` (truncation of a non-negative value is floor). -/
def sizeThresholdBytes (mb : ℚ) : Nat := (mb * 1048576).floor.toNat

/-- The `files` CLI command after directory validation: size options are
validated first and a failure aborts before any scanner is constructed or any
traversal runs; on success the scan runs with the converted threshold. -/
def run_files_command (size_gb size_mb : Option ℚ) (cfg : ScanConfig) (p₀ : FPath)
    (t : FSTree) : Except String (List (FPath × Nat)) :=
  match validate_size_options size_gb size_mb with
  | .error e => .error e
  | .ok (mb, _) => .ok (scanFiles cfg (sizeThresholdBytes mb) p₀ t)

mutual

/-- Specified recursive directory size (spec section 3, `DirectorySizeTable`
invariant): the sum of the sizes of all non-hidden, non-excluded files
reachable under a directory, recursively, excluding files under pruned
subtrees (hidden-named subdirectories and directories failing
`should_skip_path`). -/
def specRecursiveSize (cfg : ScanConfig) (p : FPath) : FSTree → Nat
  | .node files subdirs =>
    if should_skip_path cfg p then 0
    else directSize files + specRecursiveSizeList cfg p subdirs

def specRecursiveSizeList (cfg : ScanConfig) (p : FPath) : List (String × FSTree) → Nat
  | [] => 0
  | (n, c) :: rest =>
    (if strHidden n then 0 else specRecursiveSize cfg (p ++ [n]) c)
      + specRecursiveSizeList cfg p rest

end

/-- Subtree of a tree at a relative component path (children resolved by
name; unique under `treeWF`). -/
def subtreeAt : FSTree → FPath → Option FSTree
  | t, [] => some t
  | .node _ subdirs, n :: rest =>
    match subdirs.find? (fun x => x.1 == n) with
    | some (_, c) => subtreeAt c rest
    | none => none

/-- Specified reachability of a directory by the walk (spec section 4.4): the
directory at relative path `rel` is visited exactly when every directory on
the chain from the search root to it passes `should_skip_path` and every
descended-into name on the chain is non-hidden. -/
def specVisited (cfg : ScanConfig) (p : FPath) (t : FSTree) : FPath → Bool
  | [] => !should_skip_path cfg p
  | n :: rest =>
    match t with
    | .node _ subdirs =>
      !should_skip_path cfg p && !strHidden n &&
        (match subdirs.find? (fun x => x.1 == n) with
         | some (_, c) => specVisited cfg (p ++ [n]) c rest
         | none => false)

/-- A path of the items list that has a proper ancestor (a strict
component-wise prefix) among the items' paths (spec section 3, total-size
invariant). -/
def hasProperAncestorIn (items : List (FPath × Nat)) (p : FPath) : Bool :=
  items.any (fun o => o.1.isPrefixOf p && !(o.1 == p))

/-- Two runs of the same pure scan against the same unchanged tree: the scan
performs only reads (`os.walk`, `os.path.getsize`), so the tree handed to the
second run is the one the first run left behind, unchanged. -/
def runTwice {α : Type} (scan : FSTree → α) (t : FSTree) : α × α :=
  let firstRun := scan t
  let secondRun := scan t
  (firstRun, secondRun)

/-- Key list of a table (dict keys in insertion order). -/
def keysOf (t : List (FPath × Nat)) : List FPath := t.map (fun e => e.1)

/-- Sum of all values of a table. -/
def sumValues (t : List (FPath × Nat)) : Nat := (t.map (fun e => e.2)).sum

/-- Sum of the values of the entries whose key extends `d` component-wise
(`d` itself included): the recursive total a correct rollup should place at
`d`. -/
def subtreeSum (t : List (FPath × Nat)) (d : FPath) : Nat :=
  ((t.filter (fun e => d.isPrefixOf e.1)).map (fun e => e.2)).sum

/-- Removal of the entry keyed `c` (proof device for the rollup argument). -/
def eraseKey (t : List (FPath × Nat)) (c : FPath) : List (FPath × Nat) :=
  t.filter (fun e => !(e.1 == c))

/-- Claimed denylist nesting (spec section 4.1, rule 2): the candidate equals
an excluded path or is nested under it as a full path-component sequence. -/
def componentNested (p e : FPath) : Bool := e.isPrefixOf p

/-- Skip predicate as claim C4 states it: the hidden rule unchanged, the
denylist rule by full path-component nesting instead of raw string prefix. -/
def specSkipSegmentAware (cfg : ScanConfig) (p : FPath) : Bool :=
  (strHidden (baseName p) && !(cfg.includeHiddenNames.contains (baseName p)))
    || cfg.excludeFolders.any (fun e => componentNested p e)

/-- Part of a filename after its final dot, `none` when it has no dot (the
extension as claim C6 words it). -/
def specLastDotSuffix (cs : List Char) : Option (List Char) :=
  let rev := cs.reverse
  let afterDotRev := rev.takeWhile (fun c => !(c == '.'))
  match rev.drop afterDotRev.length with
  | [] => none
  | _ :: _ => some afterDotRev.reverse

/-- Video match as claim C6 states it: the part after the final dot,
lowercased and dot-prefixed, is in the extension set. -/
def specClaimVideoMatch (filename : String) : Bool :=
  match specLastDotSuffix filename.data with
  | some ext => VIDEO_EXTENSIONS.contains (String.mk ('.' :: ext.map asciiLower))
  | none => false

/-- Whether some character strictly before the final dot is not itself a dot
(CPython's `splitext` yields an extension only in this case). -/
def hasStemBeforeLastDot (cs : List Char) : Bool :=
  let rev := cs.reverse
  match rev.drop ((rev.takeWhile (fun c => !(c == '.'))).length) with
  | [] => false
  | _ :: beforeRev => beforeRev.any (fun c => !(c == '.'))

mutual

/-- Mutual structural induction device for trees and subdirectory listings. -/
def fstreeIndT {P : FSTree → Prop} {Q : List (String × FSTree) → Prop}
    (hnode : ∀ fs ds, Q ds → P (.node fs ds))
    (hnil : Q [])
    (hcons : ∀ n c rest, P c → Q rest → Q ((n, c) :: rest)) : ∀ t, P t
  | .node fs ds => hnode fs ds (fstreeIndL hnode hnil hcons ds)

def fstreeIndL {P : FSTree → Prop} {Q : List (String × FSTree) → Prop}
    (hnode : ∀ fs ds, Q ds → P (.node fs ds))
    (hnil : Q [])
    (hcons : ∀ n c rest, P c → Q rest → Q ((n, c) :: rest)) : ∀ l, Q l
  | [] => hnil
  | (n, c) :: rest =>
    hcons n c rest (fstreeIndT hnode hnil hcons c) (fstreeIndL hnode hnil hcons rest)

end

theorem fstree_mutual_ind {P : FSTree → Prop} {Q : List (String × FSTree) → Prop}
    (hnode : ∀ fs ds, Q ds → P (.node fs ds))
    (hnil : Q [])
    (hcons : ∀ n c rest, P c → Q rest → Q ((n, c) :: rest)) :
    (∀ t, P t) ∧ (∀ l, Q l) :=
  ⟨fstreeIndT hnode hnil hcons, fstreeIndL hnode hnil hcons⟩

/-- Claim C9 — running any mode's scan twice against the same unchanged tree
(the scan only reads the filesystem, so the second run sees the tree the
first run left) produces identical result lists and totals. -/
theorem scan_runs_idempotent (cfg : ScanConfig) (th : Nat) (p₀ : FPath) (t : FSTree) :
    ((runTwice (fun tr => (scanFiles cfg th p₀ tr, scanFilesTotal cfg th p₀ tr)) t).1
        = (runTwice (fun tr => (scanFiles cfg th p₀ tr, scanFilesTotal cfg th p₀ tr)) t).2)
    ∧ ((runTwice (fun tr => scanVideos cfg th p₀ tr) t).1
        = (runTwice (fun tr => scanVideos cfg th p₀ tr) t).2)
    ∧ ((runTwice
          (fun tr => (dirItemsList cfg th p₀ tr,
            calculate_total_bytes (dirItemsList cfg th p₀ tr))) t).1
        = (runTwice
          (fun tr => (dirItemsList cfg th p₀ tr,
            calculate_total_bytes (dirItemsList cfg th p₀ tr))) t).2) :=
  ⟨rfl, rfl, rfl⟩

/-- Claim C8 — size-option validation: both options is an error, non-positive
values are errors, no option defaults to exactly 1 GB (1024 MB reported in
GB), a GB value converts to `size_gb * 1024` MB, an MB value is returned
unchanged, and a validation error aborts the command before any traversal. -/
theorem validate_size_options_spec :
    (∀ g m : ℚ, validate_size_options (some g) (some m) =
        .error "You cannot use both --size-in-gb and --size-in-mb at the same time.")
    ∧ (∀ g : ℚ, g ≤ 0 →
        validate_size_options (some g) none = .error "Size in GB must be greater than 0.")
    ∧ (∀ m : ℚ, m ≤ 0 →
        validate_size_options none (some m) = .error "Size in MB must be greater than 0.")
    ∧ validate_size_options none none = .ok (1024, .gb)
    ∧ (∀ g : ℚ, 0 < g → validate_size_options (some g) none = .ok (g * 1024, .gb))
    ∧ (∀ m : ℚ, 0 < m → validate_size_options none (some m) = .ok (m, .mb))
    ∧ (∀ gb mb err cfg p₀ t, validate_size_options gb mb = .error err →
        run_files_command gb mb cfg p₀ t = .error err) := by
  refine ⟨?_, ?_, ?_, ?_, ?_, ?_, ?_⟩
  · intro g m
    simp [validate_size_options]
  · intro g hg
    simp [validate_size_options, hg]
  · intro m hm
    simp [validate_size_options, hm]
  · simp [validate_size_options, DEFAULT_SIZE_GB]
  · intro g hg
    simp [validate_size_options, not_le.mpr hg]
  · intro m hm
    simp [validate_size_options, not_le.mpr hm]
  · intro gb mb err cfg p₀ t h
    simp [run_files_command, h]

theorem validate_size_options_spec_witness :
    validate_size_options (some 2) none = .ok (2048, .gb)
      ∧ validate_size_options none (some (-5)) = .error "Size in MB must be greater than 0." := by
  constructor
  · have h := validate_size_options_spec.2.2.2.2.1 2 (by norm_num)
    rw [h]
    norm_num
  · exact validate_size_options_spec.2.2.1 (-5) (by norm_num)

/-- The empty extension never matches the fixed extension set. -/
theorem video_extensions_not_mem_empty : "" ∉ VIDEO_EXTENSIONS := by decide

/-- Lowering the dot character is the identity. -/
theorem asciiLower_dot : asciiLower '.' = '.' := by decide

/-- Claim C6 (amended) — `is_video_file` compares the lowercased
`os.path.splitext` extension against the fixed set: it agrees with the
claimed "part after the final dot" rule exactly on filenames that have a
non-dot character before their final dot; the claimed examples hold. -/
theorem is_video_file_extension_rule :
    (∀ f : String, is_video_file f = (specClaimVideoMatch f && hasStemBeforeLastDot f.data))
    ∧ is_video_file "movie.MKV" = true ∧ is_video_file "notes.txt" = false := by
  refine ⟨?_, by decide, by decide⟩
  intro f
  simp only [is_video_file, splitextExtension, specClaimVideoMatch, specLastDotSuffix,
    hasStemBeforeLastDot]
  cases h : f.data.reverse.drop ((f.data.reverse.takeWhile (fun c => !(c == '.'))).length) with
  | nil => simp [h, video_extensions_not_mem_empty]
  | cons hd tl =>
    cases hb : tl.any (fun c => !(c == '.')) with
    | true => simp [h, hb, asciiLower_dot]
    | false => simp [h, hb, video_extensions_not_mem_empty]

/-- Claim C6 fails as stated: the part of `".mkv"` after its final dot is
`"mkv"`, a video extension, yet `is_video_file ".mkv"` is `false` (CPython's
`splitext` gives dotfiles no extension). -/
theorem is_video_file_dotfile_counterexample :
    specClaimVideoMatch ".mkv" = true ∧ is_video_file ".mkv" = false := by decide

/-- Unfolding of the renderer on a nonempty path. -/
theorem renderPath_cons (a : String) (l : List String) :
    renderPath (a :: l) = "/" ++ joinComponents (a :: l) := rfl

/-- Joining a split component list inserts one separator at the split point. -/
theorem joinComponents_append (e r : FPath) (he : e ≠ []) (hr : r ≠ []) :
    joinComponents (e ++ r) = joinComponents e ++ "/" ++ joinComponents r := by
  induction e with
  | nil => exact absurd rfl he
  | cons n e' ih =>
    cases e' with
    | nil =>
      cases r with
      | nil => exact absurd rfl hr
      | cons m r' => simp [joinComponents]
    | cons n' e'' =>
      have h := ih (by simp)
      simp only [List.cons_append] at h ⊢
      have e1 : joinComponents (n :: n' :: (e'' ++ r))
          = n ++ "/" ++ joinComponents (n' :: (e'' ++ r)) := rfl
      have e2 : joinComponents (n :: n' :: e'') = n ++ "/" ++ joinComponents (n' :: e'') := rfl
      rw [e1, e2, h]
      simp [String.append_assoc]

/-- Component-wise nesting implies string-prefix nesting of the rendered
absolute paths. -/
theorem renderPath_data_startsWith {e p : FPath} (h : e <+: p) :
    (renderPath e).data <+: (renderPath p).data := by
  obtain ⟨r, rfl⟩ := h
  cases e with
  | nil =>
    cases r with
    | nil => exact List.prefix_rfl
    | cons m r' =>
      simp only [List.nil_append, renderPath_cons, String.data_append]
      exact List.prefix_append _ _
  | cons n e' =>
    cases r with
    | nil => simp
    | cons m r' =>
      have hjoin := joinComponents_append (n :: e') (m :: r') (by simp) (by simp)
      simp only [List.cons_append] at hjoin ⊢
      rw [renderPath_cons, renderPath_cons, hjoin, String.data_append, String.data_append,
        String.data_append, String.data_append]
      simp [List.append_assoc]

/-- Claim C4 (amended) — the denylist rule is a raw string-prefix test on the
rendered absolute paths: when the hidden rule does not fire, the path is
skipped exactly when its absolute string starts with some excluded absolute
string; component-wise nesting under an excluded path still always causes a
skip. -/
theorem should_skip_denylist_raw_string :
    (∀ cfg p, (strHidden (baseName p) && !(cfg.includeHiddenNames.contains (baseName p))) = false →
      (should_skip_path cfg p = true ↔
        ∃ e ∈ cfg.excludeFolders, strStartsWith (renderPath p) (renderPath e) = true))
    ∧ (∀ cfg p e, e ∈ cfg.excludeFolders → componentNested p e = true →
        should_skip_path cfg p = true) := by
  constructor
  · intro cfg p h
    simp only [should_skip_path, h, Bool.false_or, List.any_eq_true]
  · intro cfg p e he hn
    have hpre : e <+: p := List.isPrefixOf_iff_prefix.mp hn
    have hsw : strStartsWith (renderPath p) (renderPath e) = true :=
      List.isPrefixOf_iff_prefix.mpr (renderPath_data_startsWith hpre)
    have hB : cfg.excludeFolders.any (fun x => strStartsWith (renderPath p) (renderPath x)) = true :=
      List.any_eq_true.mpr ⟨e, he, hsw⟩
    simp only [should_skip_path, hB, Bool.or_true]

theorem should_skip_denylist_raw_string_witness :
    (should_skip_path ⟨[], [["a"]]⟩ ["a", "b"] = true ↔
      ∃ e ∈ ([["a"]] : List FPath),
        strStartsWith (renderPath ["a", "b"]) (renderPath e) = true)
    ∧ should_skip_path ⟨[], [["a"]]⟩ ["a", "b"] = true :=
  ⟨should_skip_denylist_raw_string.1 ⟨[], [["a"]]⟩ ["a", "b"] (by decide),
   should_skip_denylist_raw_string.2 ⟨[], [["a"]]⟩ ["a", "b"] ["a"] (by decide) (by decide)⟩

/-- Claim C4 fails as stated: with exclusion entry `/foo`, the sibling path
`/foo2` is skipped by the raw `str.startswith` test although it is neither
equal to `/foo` nor nested under it as path components, and it is not hidden. -/
theorem should_skip_segment_counterexample :
    should_skip_path ⟨[], [["foo"]]⟩ ["foo2"] = true
      ∧ specSkipSegmentAware ⟨[], [["foo"]]⟩ ["foo2"] = false := by decide

/-- Claim C5 (amended) — the hidden rule of `should_skip_path` does exempt
basenames in `includedHiddenNames` (only the denylist can still skip them, so
such a directory given as the search root is scanned), but every scanner's
descent filter `dirs[:] = [d for d in dirs if not d.startswith(".")]` removes
all dot-named subdirectories regardless of the exemption, so an included
hidden directory reached as a subdirectory is never descended into, in every
mode. -/
theorem hidden_included_dirs_not_descended :
    (∀ cfg p, cfg.includeHiddenNames.contains (baseName p) = true →
      should_skip_path cfg p
        = cfg.excludeFolders.any (fun e => strStartsWith (renderPath p) (renderPath e)))
    ∧ (∀ cfg th p n c rest, strHidden n = true →
        scanFilesList cfg th p ((n, c) :: rest) = scanFilesList cfg th p rest
          ∧ scanVideosList cfg th p ((n, c) :: rest) = scanVideosList cfg th p rest
          ∧ walkDirsList cfg p ((n, c) :: rest) = walkDirsList cfg p rest) := by
  constructor
  · intro cfg p h
    simp only [should_skip_path, h, Bool.not_true, Bool.and_false, Bool.false_or]
  · intro cfg th p n c rest h
    refine ⟨?_, ?_, ?_⟩ <;> simp [scanFilesList, scanVideosList, walkDirsList, h]

theorem hidden_included_dirs_not_descended_witness :
    (should_skip_path ⟨[".git"], []⟩ ["home", ".git"]
        = (⟨[".git"], []⟩ : ScanConfig).excludeFolders.any
            (fun e => strStartsWith (renderPath ["home", ".git"]) (renderPath e)))
    ∧ scanFilesList ⟨[".git"], []⟩ 1 ["home"] [(".git", .node [("big.bin", some 2048)] [])]
        = scanFilesList ⟨[".git"], []⟩ 1 ["home"] [] :=
  ⟨hidden_included_dirs_not_descended.1 ⟨[".git"], []⟩ ["home", ".git"] (by decide),
   (hidden_included_dirs_not_descended.2 ⟨[".git"], []⟩ 1 ["home"] ".git"
      (.node [("big.bin", some 2048)] []) [] (by decide)).1⟩

/-- Claim C5 fails as stated: with `.git` in `INCLUDE_HIDDEN_FOLDERS`, the
hidden rule does not skip `/home/.git` — yet a `.git` subdirectory holding a
2048-byte file yields no file result, no video result, and no directory
table entry in a scan of its parent: it is not descended into. -/
theorem hidden_included_dir_contents_counterexample :
    should_skip_path ⟨INCLUDE_HIDDEN_FOLDERS, []⟩ ["home", ".git"] = false
      ∧ scanFiles ⟨INCLUDE_HIDDEN_FOLDERS, []⟩ 1 ["home"]
          (.node [] [(".git", .node [("big.bin", some 2048)] [])]) = []
      ∧ scanVideos ⟨INCLUDE_HIDDEN_FOLDERS, []⟩ 1 ["home"]
          (.node [] [(".git", .node [("big.mkv", some 2048)] [])]) = []
      ∧ walkDirs ⟨INCLUDE_HIDDEN_FOLDERS, []⟩ ["home"]
          (.node [] [(".git", .node [("big.bin", some 2048)] [])]) = [(["home"], 0)] := by
  decide

/-- Removing the failing-stat entries does not change the collected file
entries: a `none` stat is skipped by the per-entry handler anyway. -/
theorem fileEntries_filter_stat (th : Nat) (p : FPath) (files : List (String × Option Nat)) :
    fileEntries th p (files.filter (fun f => f.2.isSome)) = fileEntries th p files := by
  induction files with
  | nil => rfl
  | cons f rest ih =>
    obtain ⟨n, st⟩ := f
    cases st with
    | none => simpa [fileEntries, List.filter_cons] using ih
    | some s => simp [fileEntries, List.filter_cons, ih]

theorem fileEntriesTotal_filter_stat (th : Nat) (files : List (String × Option Nat)) :
    fileEntriesTotal th (files.filter (fun f => f.2.isSome)) = fileEntriesTotal th files := by
  induction files with
  | nil => rfl
  | cons f rest ih =>
    obtain ⟨n, st⟩ := f
    cases st with
    | none => simpa [fileEntriesTotal, List.filter_cons] using ih
    | some s => simp [fileEntriesTotal, List.filter_cons, ih]

theorem videoEntries_filter_stat (th : Nat) (p : FPath) (files : List (String × Option Nat)) :
    videoEntries th p (files.filter (fun f => f.2.isSome)) = videoEntries th p files := by
  induction files with
  | nil => rfl
  | cons f rest ih =>
    obtain ⟨n, st⟩ := f
    cases st with
    | none => simpa [videoEntries, List.filter_cons] using ih
    | some s => simp [videoEntries, List.filter_cons, ih]

theorem directSize_filter_stat (files : List (String × Option Nat)) :
    directSize (files.filter (fun f => f.2.isSome)) = directSize files := by
  induction files with
  | nil => rfl
  | cons f rest ih =>
    obtain ⟨n, st⟩ := f
    cases st with
    | none => simpa [directSize, List.filter_cons] using ih
    | some s => simp [directSize, List.filter_cons, ih]

theorem fileEntriesE_filter_stat (v : Bool) (th : Nat) (p : FPath)
    (files : List (String × Option Nat)) :
    fileEntriesE v th p (files.filter (fun f => f.2.isSome)) = fileEntriesE v th p files := by
  induction files with
  | nil => rfl
  | cons f rest ih =>
    obtain ⟨n, st⟩ := f
    cases st with
    | none => simpa [fileEntriesE, List.filter_cons] using ih
    | some s => simp [fileEntriesE, List.filter_cons, ih]

theorem videoEntriesE_filter_stat (v : Bool) (th : Nat) (p : FPath)
    (files : List (String × Option Nat)) :
    videoEntriesE v th p (files.filter (fun f => f.2.isSome)) = videoEntriesE v th p files := by
  induction files with
  | nil => rfl
  | cons f rest ih =>
    obtain ⟨n, st⟩ := f
    cases st with
    | none => simpa [videoEntriesE, List.filter_cons] using ih
    | some s => simp [videoEntriesE, List.filter_cons, ih]

/-- Master invariance: every mode's scan is unchanged by removing the
inaccessible file entries from the tree. -/
theorem pruneFailed_invariance :
    (∀ t : FSTree, ∀ (cfg : ScanConfig) (th : Nat) (v : Bool) (p : FPath),
        scanFiles cfg th p (pruneFailed t) = scanFiles cfg th p t
        ∧ scanFilesTotal cfg th p (pruneFailed t) = scanFilesTotal cfg th p t
        ∧ scanVideos cfg th p (pruneFailed t) = scanVideos cfg th p t
        ∧ walkDirs cfg p (pruneFailed t) = walkDirs cfg p t
        ∧ scanFilesE cfg v th p (pruneFailed t) = scanFilesE cfg v th p t
        ∧ scanVideosE cfg v th p (pruneFailed t) = scanVideosE cfg v th p t)
    ∧ (∀ l : List (String × FSTree), ∀ (cfg : ScanConfig) (th : Nat) (v : Bool) (p : FPath),
        scanFilesList cfg th p (pruneFailedList l) = scanFilesList cfg th p l
        ∧ scanFilesTotalList cfg th p (pruneFailedList l) = scanFilesTotalList cfg th p l
        ∧ scanVideosList cfg th p (pruneFailedList l) = scanVideosList cfg th p l
        ∧ walkDirsList cfg p (pruneFailedList l) = walkDirsList cfg p l
        ∧ scanFilesListE cfg v th p (pruneFailedList l) = scanFilesListE cfg v th p l
        ∧ scanVideosListE cfg v th p (pruneFailedList l) = scanVideosListE cfg v th p l) := by
  refine fstree_mutual_ind ?_ ?_ ?_
  · intro fs ds ih cfg th v p
    obtain ⟨h1, h2, h3, h4, h5, h6⟩ := ih cfg th v p
    refine ⟨?_, ?_, ?_, ?_, ?_, ?_⟩
    · simp [pruneFailed, scanFiles, fileEntries_filter_stat, h1]
    · simp [pruneFailed, scanFilesTotal, fileEntriesTotal_filter_stat, h2]
    · simp [pruneFailed, scanVideos, videoEntries_filter_stat, h3]
    · simp [pruneFailed, walkDirs, directSize_filter_stat, h4]
    · simp [pruneFailed, scanFilesE, fileEntriesE_filter_stat, h5]
    · simp [pruneFailed, scanVideosE, videoEntriesE_filter_stat, h6]
  · intro cfg th v p
    exact ⟨rfl, rfl, rfl, rfl, rfl, rfl⟩
  · intro n c rest ihc ihrest cfg th v p
    obtain ⟨c1, c2, c3, c4, c5, c6⟩ := ihc cfg th v (p ++ [n])
    obtain ⟨r1, r2, r3, r4, r5, r6⟩ := ihrest cfg th v p
    refine ⟨?_, ?_, ?_, ?_, ?_, ?_⟩
    · simp [pruneFailedList, scanFilesList, c1, r1]
    · simp [pruneFailedList, scanFilesTotalList, c2, r2]
    · simp [pruneFailedList, scanVideosList, c3, r3]
    · simp [pruneFailedList, walkDirsList, c4, r4]
    · simp [pruneFailedList, scanFilesListE, c5, r5]
    · simp [pruneFailedList, scanVideosListE, c6, r6]

/-- Claim C7 — per-entry access failures never abort a scan and never change
its outcome: in every mode (including with verbose logging modelled), the
scan of a tree equals the scan of the same tree with the inaccessible
entries removed. -/
theorem per_entry_errors_recoverable (cfg : ScanConfig) (th : Nat) (v : Bool) (p₀ : FPath)
    (t : FSTree) :
    scanFilesE cfg v th p₀ (pruneFailed t) = scanFilesE cfg v th p₀ t
    ∧ scanVideosE cfg v th p₀ (pruneFailed t) = scanVideosE cfg v th p₀ t
    ∧ scanFiles cfg th p₀ (pruneFailed t) = scanFiles cfg th p₀ t
    ∧ scanFilesTotal cfg th p₀ (pruneFailed t) = scanFilesTotal cfg th p₀ t
    ∧ scanVideos cfg th p₀ (pruneFailed t) = scanVideos cfg th p₀ t
    ∧ dirItemsList cfg th p₀ (pruneFailed t) = dirItemsList cfg th p₀ t
    ∧ calculate_total_bytes (dirItemsList cfg th p₀ (pruneFailed t))
        = calculate_total_bytes (dirItemsList cfg th p₀ t) := by
  obtain ⟨h1, h2, h3, h4, h5, h6⟩ := pruneFailed_invariance.1 t cfg th v p₀
  have hd : dirItemsList cfg th p₀ (pruneFailed t) = dirItemsList cfg th p₀ t := by
    simp [dirItemsList, dirScanTable, h4]
  exact ⟨h5, h6, h1, h2, h3, hd, by rw [hd]⟩

/-- List emptiness distributes over append. -/
theorem list_isEmpty_append {α : Type} (a b : List α) :
    (a ++ b).isEmpty = (a.isEmpty && b.isEmpty) := by
  cases a <;> simp

/-- The attribute lookup `self.MB_TO_BYTES` in the verbose branch fails. -/
theorem verboseLogLargeEntry_true : verboseLogLargeEntry true = .error .attributeError := rfl

/-- With verbose off, the fallible file loop returns the plain entries. -/
theorem fileEntriesE_false (th : Nat) (p : FPath) (files : List (String × Option Nat)) :
    fileEntriesE false th p files = .ok (fileEntries th p files) := by
  induction files with
  | nil => rfl
  | cons f rest ih =>
    obtain ⟨n, st⟩ := f
    by_cases hn : strHidden n
    · simp [fileEntriesE, fileEntries, hn, ih]
    · cases st with
      | none => simp [fileEntriesE, fileEntries, hn, ih]
      | some s =>
        by_cases hs : th ≤ s <;>
          simp [fileEntriesE, fileEntries, hn, hs, ih, verboseLogLargeEntry]

/-- With verbose on, the fallible file loop aborts with `AttributeError` as
soon as one entry qualifies, and succeeds with no entries otherwise. -/
theorem fileEntriesE_true (th : Nat) (p : FPath) (files : List (String × Option Nat)) :
    fileEntriesE true th p files
      = if (fileEntries th p files).isEmpty then .ok [] else .error .attributeError := by
  induction files with
  | nil => rfl
  | cons f rest ih =>
    obtain ⟨n, st⟩ := f
    by_cases hn : strHidden n
    · simp [fileEntriesE, fileEntries, hn, ih]
    · cases st with
      | none => simp [fileEntriesE, fileEntries, hn, ih]
      | some s =>
        by_cases hs : th ≤ s <;>
          simp [fileEntriesE, fileEntries, hn, hs, ih, verboseLogLargeEntry_true]

theorem videoEntriesE_false (th : Nat) (p : FPath) (files : List (String × Option Nat)) :
    videoEntriesE false th p files = .ok (videoEntries th p files) := by
  induction files with
  | nil => rfl
  | cons f rest ih =>
    obtain ⟨n, st⟩ := f
    by_cases hn : (strHidden n || !is_video_file n) = true
    · simp [videoEntriesE, videoEntries, hn, ih]
    · cases st with
      | none => simp [videoEntriesE, videoEntries, hn, ih]
      | some s =>
        by_cases hs : th ≤ s <;>
          simp [videoEntriesE, videoEntries, hn, hs, ih, verboseLogLargeEntry]

theorem videoEntriesE_true (th : Nat) (p : FPath) (files : List (String × Option Nat)) :
    videoEntriesE true th p files
      = if (videoEntries th p files).isEmpty then .ok [] else .error .attributeError := by
  induction files with
  | nil => rfl
  | cons f rest ih =>
    obtain ⟨n, st⟩ := f
    by_cases hn : (strHidden n || !is_video_file n) = true
    · simp [videoEntriesE, videoEntries, hn, ih]
    · cases st with
      | none => simp [videoEntriesE, videoEntries, hn, ih]
      | some s =>
        by_cases hs : th ≤ s <;>
          simp [videoEntriesE, videoEntries, hn, hs, ih, verboseLogLargeEntry_true]

/-- Master characterization of the fallible scans: verbose off reproduces the
plain scan; verbose on aborts with `AttributeError` exactly when the plain
scan would report at least one entry. -/
theorem scanE_characterization :
    (∀ t : FSTree, ∀ (cfg : ScanConfig) (th : Nat) (p : FPath),
        scanFilesE cfg false th p t = .ok (scanFiles cfg th p t)
        ∧ scanFilesE cfg true th p t
            = (if (scanFiles cfg th p t).isEmpty then .ok [] else .error .attributeError)
        ∧ scanVideosE cfg false th p t = .ok (scanVideos cfg th p t)
        ∧ scanVideosE cfg true th p t
            = (if (scanVideos cfg th p t).isEmpty then .ok [] else .error .attributeError))
    ∧ (∀ l : List (String × FSTree), ∀ (cfg : ScanConfig) (th : Nat) (p : FPath),
        scanFilesListE cfg false th p l = .ok (scanFilesList cfg th p l)
        ∧ scanFilesListE cfg true th p l
            = (if (scanFilesList cfg th p l).isEmpty then .ok [] else .error .attributeError)
        ∧ scanVideosListE cfg false th p l = .ok (scanVideosList cfg th p l)
        ∧ scanVideosListE cfg true th p l
            = (if (scanVideosList cfg th p l).isEmpty then .ok [] else .error .attributeError)) := by
  refine fstree_mutual_ind ?_ ?_ ?_
  · intro fs ds ih cfg th p
    obtain ⟨h1, h2, h3, h4⟩ := ih cfg th p
    by_cases hs : should_skip_path cfg p = true
    · refine ⟨?_, ?_, ?_, ?_⟩ <;>
        simp [scanFilesE, scanVideosE, scanFiles, scanVideos, hs]
    · refine ⟨?_, ?_, ?_, ?_⟩
      · simp [scanFilesE, scanFiles, hs, fileEntriesE_false, h1]
      · by_cases hfe : fileEntries th p fs = []
        · by_cases hle : scanFilesList cfg th p ds = [] <;>
            simp [scanFilesE, scanFiles, hs, fileEntriesE_true, h2, hfe, hle]
        · simp [scanFilesE, scanFiles, hs, fileEntriesE_true, h2, hfe]
      · simp [scanVideosE, scanVideos, hs, videoEntriesE_false, h3]
      · by_cases hfe : videoEntries th p fs = []
        · by_cases hle : scanVideosList cfg th p ds = [] <;>
            simp [scanVideosE, scanVideos, hs, videoEntriesE_true, h4, hfe, hle]
        · simp [scanVideosE, scanVideos, hs, videoEntriesE_true, h4, hfe]
  · intro cfg th p
    exact ⟨rfl, rfl, rfl, rfl⟩
  · intro n c rest ihc ihrest cfg th p
    obtain ⟨c1, c2, c3, c4⟩ := ihc cfg th (p ++ [n])
    obtain ⟨r1, r2, r3, r4⟩ := ihrest cfg th p
    by_cases hn : strHidden n = true
    · refine ⟨?_, ?_, ?_, ?_⟩
      · simp [scanFilesListE, scanFilesList, hn, r1]
      · by_cases hre : scanFilesList cfg th p rest = [] <;>
          simp [scanFilesListE, scanFilesList, hn, r2, hre]
      · simp [scanVideosListE, scanVideosList, hn, r3]
      · by_cases hre : scanVideosList cfg th p rest = [] <;>
          simp [scanVideosListE, scanVideosList, hn, r4, hre]
    · refine ⟨?_, ?_, ?_, ?_⟩
      · simp [scanFilesListE, scanFilesList, hn, c1, r1]
      · by_cases hce : scanFiles cfg th (p ++ [n]) c = []
        · by_cases hre : scanFilesList cfg th p rest = [] <;>
            simp [scanFilesListE, scanFilesList, hn, c2, r2, hce, hre]
        · simp [scanFilesListE, scanFilesList, hn, c2, r2, hce]
      · simp [scanVideosListE, scanVideosList, hn, c3, r3]
      · by_cases hce : scanVideos cfg th (p ++ [n]) c = []
        · by_cases hre : scanVideosList cfg th p rest = [] <;>
            simp [scanVideosListE, scanVideosList, hn, c4, r4, hce, hre]
        · simp [scanVideosListE, scanVideosList, hn, c4, r4, hce]

/-- Claim C10 — with verbose logging on, building the debug message for a
found entry reads the undefined `self.MB_TO_BYTES`: in files mode and videos
mode any tree with at least one qualifying entry makes the scan abort with an
`AttributeError` escaping the per-entry handler (and the entry is never
appended); with verbose off the same tree scans successfully. -/
theorem verbose_logging_aborts_scan (cfg : ScanConfig) (th : Nat) (p₀ : FPath) (t : FSTree) :
    (scanFiles cfg th p₀ t ≠ [] → scanFilesE cfg true th p₀ t = .error .attributeError)
    ∧ scanFilesE cfg false th p₀ t = .ok (scanFiles cfg th p₀ t)
    ∧ (scanVideos cfg th p₀ t ≠ [] → scanVideosE cfg true th p₀ t = .error .attributeError)
    ∧ scanVideosE cfg false th p₀ t = .ok (scanVideos cfg th p₀ t) := by
  obtain ⟨h1, h2, h3, h4⟩ := scanE_characterization.1 t cfg th p₀
  refine ⟨?_, h1, ?_, h3⟩
  · intro hne
    simp [h2, hne]
  · intro hne
    simp [h4, hne]

theorem verbose_logging_aborts_scan_witness :
    scanFilesE ⟨[], []⟩ true 1 ["r"] (.node [("a.mkv", some 5)] []) = .error .attributeError
      ∧ scanVideosE ⟨[], []⟩ true 1 ["r"] (.node [("a.mkv", some 5)] [])
          = .error .attributeError :=
  ⟨(verbose_logging_aborts_scan ⟨[], []⟩ 1 ["r"] (.node [("a.mkv", some 5)] [])).1 (by decide),
   (verbose_logging_aborts_scan ⟨[], []⟩ 1 ["r"]
      (.node [("a.mkv", some 5)] [])).2.2.1 (by decide)⟩

theorem sumValues_append (a b : List (FPath × Nat)) :
    sumValues (a ++ b) = sumValues a + sumValues b := by
  simp [sumValues]

/-- The per-directory running total equals the sum of the per-directory
collected entries. -/
theorem fileEntriesTotal_eq_sum (th : Nat) (p : FPath) (fs : List (String × Option Nat)) :
    fileEntriesTotal th fs = sumValues (fileEntries th p fs) := by
  induction fs with
  | nil => rfl
  | cons f rest ih =>
    obtain ⟨n, st⟩ := f
    by_cases hn : strHidden n = true
    · simp [fileEntriesTotal, fileEntries, hn, ih]
    · cases st with
      | none => simp [fileEntriesTotal, fileEntries, hn, ih]
      | some s =>
        by_cases hth : th ≤ s <;>
          simp [fileEntriesTotal, fileEntries, sumValues_append, sumValues, hn, hth, ih]

/-- The files-mode `total_bytes` equals the sum of the sizes of `items_list`:
the two are accumulated together in the same loop. -/
theorem scanFilesTotal_eq_sum :
    (∀ t : FSTree, ∀ (cfg : ScanConfig) (th : Nat) (p : FPath),
        scanFilesTotal cfg th p t = sumValues (scanFiles cfg th p t))
    ∧ (∀ l : List (String × FSTree), ∀ (cfg : ScanConfig) (th : Nat) (p : FPath),
        scanFilesTotalList cfg th p l = sumValues (scanFilesList cfg th p l)) := by
  refine fstree_mutual_ind ?_ ?_ ?_
  · intro fs ds ih cfg th p
    by_cases hs : should_skip_path cfg p = true
    · simp [scanFilesTotal, scanFiles, hs, sumValues]
    · simp [scanFilesTotal, scanFiles, hs, sumValues_append, ih cfg th p,
        fileEntriesTotal_eq_sum th p fs]
  · intro cfg th p
    rfl
  · intro n c rest ihc ihrest cfg th p
    by_cases hn : strHidden n = true
    · simp [scanFilesTotalList, scanFilesList, hn, ihrest cfg th p, sumValues]
    · simp [scanFilesTotalList, scanFilesList, hn, sumValues_append, ihc cfg th (p ++ [n]),
        ihrest cfg th p]

/-- Membership in the entries one directory's file loop collects. -/
theorem fileEntries_mem (th : Nat) (p : FPath) (fs : List (String × Option Nat))
    (q : FPath) (s : Nat) :
    ((q, s) ∈ fileEntries th p fs ↔
      ∃ fname, (fname, some s) ∈ fs ∧ strHidden fname = false ∧ th ≤ s ∧ q = p ++ [fname]) := by
  induction fs with
  | nil => simp [fileEntries]
  | cons f rest ih =>
    obtain ⟨n, st⟩ := f
    cases st with
    | none =>
      have hunf : fileEntries th p ((n, none) :: rest)
          = (if strHidden n then [] else []) ++ fileEntries th p rest := rfl
      rw [hunf, ite_self, List.nil_append, ih]
      constructor
      · rintro ⟨fname, h1, h2, h3, h4⟩
        exact ⟨fname, List.mem_cons_of_mem _ h1, h2, h3, h4⟩
      · rintro ⟨fname, hmem, hfn, hth, rfl⟩
        rcases List.mem_cons.mp hmem with heq | hmem'
        · exact absurd (congrArg Prod.snd heq) (by simp)
        · exact ⟨fname, hmem', hfn, hth, rfl⟩
    | some s' =>
      have hunf : fileEntries th p ((n, some s') :: rest)
          = (if strHidden n then []
             else if th ≤ s' then [(p ++ [n], s')] else []) ++ fileEntries th p rest := rfl
      rw [hunf, List.mem_append, ih]
      constructor
      · rintro (hh | ⟨fname, h1, h2, h3, h4⟩)
        · by_cases hn : strHidden n = true
          · rw [if_pos hn] at hh
            exact absurd hh (List.not_mem_nil _)
          · rw [if_neg hn] at hh
            by_cases hth : th ≤ s'
            · rw [if_pos hth] at hh
              have heq := List.mem_singleton.mp hh
              have hq : q = p ++ [n] := congrArg Prod.fst heq
              have hsv : s = s' := congrArg Prod.snd heq
              subst hsv
              exact ⟨n, List.mem_cons_self _ _, Bool.eq_false_iff.mpr hn, hth, hq⟩
            · rw [if_neg hth] at hh
              exact absurd hh (List.not_mem_nil _)
        · exact ⟨fname, List.mem_cons_of_mem _ h1, h2, h3, h4⟩
      · rintro ⟨fname, hmem, hfn, hth, rfl⟩
        rcases List.mem_cons.mp hmem with heq | hmem'
        · have hfe : fname = n := congrArg Prod.fst heq
          have hse : (some s : Option Nat) = some s' := congrArg Prod.snd heq
          have hsv : s = s' := Option.some.inj hse
          subst hfe
          subst hsv
          left
          rw [if_neg (by simp [hfn]), if_pos hth]
          exact List.mem_singleton.mpr rfl
        · right
          exact ⟨fname, hmem', hfn, hth, rfl⟩

/-- Master membership characterization of the files-mode scan: an entry is
reported exactly for a non-hidden, successfully statted, large-enough file of
a visited (non-pruned) directory. -/
theorem scanFiles_mem_master :
    (∀ t : FSTree, ∀ (cfg : ScanConfig) (th : Nat) (p q : FPath) (s : Nat), treeWF t = true →
        ((q, s) ∈ scanFiles cfg th p t ↔
          ∃ rel files ds fname, subtreeAt t rel = some (.node files ds)
            ∧ specVisited cfg p t rel = true
            ∧ (fname, some s) ∈ files ∧ strHidden fname = false ∧ th ≤ s
            ∧ q = p ++ rel ++ [fname]))
    ∧ (∀ l : List (String × FSTree), ∀ (cfg : ScanConfig) (th : Nat) (p q : FPath) (s : Nat),
        namesNodup l = true → treeWFList l = true →
        ((q, s) ∈ scanFilesList cfg th p l ↔
          ∃ n c rel files ds fname, l.find? (fun x => x.1 == n) = some (n, c)
            ∧ strHidden n = false
            ∧ subtreeAt c rel = some (.node files ds)
            ∧ specVisited cfg (p ++ [n]) c rel = true
            ∧ (fname, some s) ∈ files ∧ strHidden fname = false ∧ th ≤ s
            ∧ q = p ++ [n] ++ rel ++ [fname])) := by
  refine fstree_mutual_ind ?_ ?_ ?_
  · intro fs ds ihl cfg th p q s hwf
    have hw : namesNodup fs = true ∧ namesNodup ds = true ∧ treeWFList ds = true := by
      simpa [treeWF, Bool.and_eq_true, and_assoc] using hwf
    by_cases hs : should_skip_path cfg p = true
    · constructor
      · intro h
        rw [show scanFiles cfg th p (.node fs ds) = [] from by simp [scanFiles, hs]] at h
        exact absurd h (List.not_mem_nil _)
      · rintro ⟨rel, files, ds', fname, hsub, hvis, hmem, hfn, hth, rfl⟩
        exfalso
        cases rel with
        | nil => simp [specVisited, hs] at hvis
        | cons a b => simp [specVisited, hs] at hvis
    · have hunf : scanFiles cfg th p (.node fs ds)
          = fileEntries th p fs ++ scanFilesList cfg th p ds := by simp [scanFiles, hs]
      rw [hunf, List.mem_append, fileEntries_mem, ihl cfg th p q s hw.2.1 hw.2.2]
      constructor
      · rintro (⟨fname, h1, h2, h3, h4⟩ |
          ⟨n, c, rel, files, ds', fname, hfind, hhn, hsub, hvis, hmem, hfn, hth, rfl⟩)
        · exact ⟨[], fs, ds, fname, rfl, by simp [specVisited, hs], h1, h2, h3, by simp [h4]⟩
        · refine ⟨n :: rel, files, ds', fname, ?_, ?_, hmem, hfn, hth, by simp⟩
          · simp [subtreeAt, hfind, hsub]
          · simp [specVisited, hs, hhn, hfind, hvis]
      · rintro ⟨rel, files, ds', fname, hsub, hvis, hmem, hfn, hth, rfl⟩
        cases rel with
        | nil =>
          left
          have hnode : FSTree.node fs ds = FSTree.node files ds' := by
            simpa [subtreeAt] using hsub
          injection hnode with hfs hds
          subst hfs
          exact ⟨fname, hmem, hfn, hth, by simp⟩
        | cons n rel' =>
          right
          cases hfind : ds.find? (fun x => x.1 == n) with
          | none =>
            rw [show subtreeAt (FSTree.node fs ds) (n :: rel') = none from by
              simp [subtreeAt, hfind]] at hsub
            exact absurd hsub (by simp)
          | some x =>
            obtain ⟨m, c⟩ := x
            have hm : m = n := by
              have := List.find?_some hfind
              simpa [beq_iff_eq] using this
            subst hm
            have hsub' : subtreeAt c rel' = some (.node files ds') := by
              simpa [subtreeAt, hfind] using hsub
            have hvis' : strHidden m = false ∧ specVisited cfg (p ++ [m]) c rel' = true := by
              simpa [specVisited, hs, hfind, Bool.and_eq_true_iff] using hvis
            exact ⟨m, c, rel', files, ds', fname, hfind, hvis'.1, hsub', hvis'.2, hmem, hfn,
              hth, by simp⟩
  · intro cfg th p q s _ _
    constructor
    · intro h
      simp [scanFilesList] at h
    · rintro ⟨n, c, rel, files, ds', fname, hfind, _⟩
      rw [List.find?_nil] at hfind
      exact absurd hfind (by simp)
  · intro m c0 rest ihc ihrest cfg th p q s hnd hwfl
    have hnd' : (rest.any (fun y => y.1 == m)) = false ∧ namesNodup rest = true := by
      simpa [namesNodup, Bool.and_eq_true_iff] using hnd
    have hwf' : treeWF c0 = true ∧ treeWFList rest = true := by
      simpa [treeWFList, Bool.and_eq_true_iff] using hwfl
    have hunf : scanFilesList cfg th p ((m, c0) :: rest)
        = (if strHidden m then [] else scanFiles cfg th (p ++ [m]) c0)
            ++ scanFilesList cfg th p rest := rfl
    rw [hunf, List.mem_append, ihrest cfg th p q s hnd'.2 hwf'.2]
    constructor
    · rintro (hh |
        ⟨n, c, rel, files, ds', fname, hfind, hhn, hsub, hvis, hmem, hfn, hth, rfl⟩)
      · by_cases hm : strHidden m = true
        · rw [if_pos hm] at hh
          exact absurd hh (List.not_mem_nil _)
        · rw [if_neg hm] at hh
          obtain ⟨rel, files, ds', fname, hsub, hvis, hmem, hfn, hth, rfl⟩ :=
            (ihc cfg th (p ++ [m]) q s hwf'.1).mp hh
          exact ⟨m, c0, rel, files, ds', fname, List.find?_cons_of_pos _ (by simp),
            Bool.eq_false_iff.mpr hm, hsub, hvis, hmem, hfn, hth, rfl⟩
      · have hmem_rest := List.mem_of_find?_eq_some hfind
        have hne : ¬((fun x : String × FSTree => x.1 == n) (m, c0)) = true := by
          intro hbeq
          have hmn : m = n := by simpa [beq_iff_eq] using hbeq
          have hany : rest.any (fun y => y.1 == m) = true :=
            List.any_eq_true.mpr ⟨(n, c), hmem_rest, by simp [hmn]⟩
          rw [hnd'.1] at hany
          exact absurd hany (by simp)
        refine ⟨n, c, rel, files, ds', fname, ?_, hhn, hsub, hvis, hmem, hfn, hth, rfl⟩
        rw [@List.find?_cons_of_neg _ (fun x : String × FSTree => x.1 == n) (m, c0) rest hne]
        exact hfind
    · rintro ⟨n, c, rel, files, ds', fname, hfind, hhn, hsub, hvis, hmem, hfn, hth, rfl⟩
      by_cases hbeq : ((fun x : String × FSTree => x.1 == n) (m, c0)) = true
      · have hhead : ((m, c0) :: rest).find? (fun x => x.1 == n) = some (m, c0) :=
          List.find?_cons_of_pos _ hbeq
        rw [hfind] at hhead
        have hpair : (n, c) = (m, c0) := Option.some.inj hhead
        have hnm : n = m := congrArg Prod.fst hpair
        have hcc : c = c0 := congrArg Prod.snd hpair
        subst hnm
        subst hcc
        left
        rw [if_neg (by simp [hhn])]
        exact (ihc cfg th (p ++ [n]) _ s hwf'.1).mpr
          ⟨rel, files, ds', fname, hsub, hvis, hmem, hfn, hth, rfl⟩
      · have hfind' : rest.find? (fun x => x.1 == n) = some (n, c) := by
          rw [@List.find?_cons_of_neg _ (fun x : String × FSTree => x.1 == n) (m, c0) rest hbeq]
            at hfind
          exact hfind
        right
        exact ⟨n, c, rel, files, ds', fname, hfind', hhn, hsub, hvis, hmem, hfn, hth, rfl⟩

/-- Claim C3 — files-mode result-set correctness: for a well-formed tree the
result list contains exactly the entries `(path, size)` of non-hidden files
with a successful stat and `size >= threshold` lying in a visited directory
(one not under an excluded or hidden directory), and the reported total is
the sum of the listed sizes. -/
theorem files_mode_result_set (cfg : ScanConfig) (th : Nat) (p₀ : FPath) (t : FSTree)
    (hwf : treeWF t = true) :
    (∀ q s, ((q, s) ∈ scanFiles cfg th p₀ t ↔
      ∃ rel files ds fname, subtreeAt t rel = some (.node files ds)
        ∧ specVisited cfg p₀ t rel = true
        ∧ (fname, some s) ∈ files ∧ strHidden fname = false ∧ th ≤ s
        ∧ q = p₀ ++ rel ++ [fname]))
    ∧ scanFilesTotal cfg th p₀ t = sumValues (scanFiles cfg th p₀ t) :=
  ⟨fun q s => scanFiles_mem_master.1 t cfg th p₀ q s hwf,
   scanFilesTotal_eq_sum.1 t cfg th p₀⟩

theorem files_mode_result_set_witness :
    treeWF (.node [("a.txt", some 5)] []) = true
      ∧ scanFilesTotal ⟨[], []⟩ 1 ["r"] (.node [("a.txt", some 5)] [])
          = sumValues (scanFiles ⟨[], []⟩ 1 ["r"] (.node [("a.txt", some 5)] [])) :=
  ⟨by decide,
   (files_mode_result_set ⟨[], []⟩ 1 ["r"] (.node [("a.txt", some 5)] []) (by decide)).2⟩

theorem subtreeSum_nil (d : FPath) : subtreeSum [] d = 0 := rfl

theorem subtreeSum_cons (k : FPath) (v : Nat) (t : List (FPath × Nat)) (d : FPath) :
    subtreeSum ((k, v) :: t) d = (if d.isPrefixOf k then v else 0) + subtreeSum t d := by
  by_cases h : d.isPrefixOf k = true <;> simp [subtreeSum, List.filter_cons, h]

theorem subtreeSum_append (a b : List (FPath × Nat)) (d : FPath) :
    subtreeSum (a ++ b) d = subtreeSum a d + subtreeSum b d := by
  simp [subtreeSum, List.filter_append]

theorem subtreeSum_eq_zero {t : List (FPath × Nat)} {d : FPath}
    (h : ∀ e ∈ t, ¬(d <+: e.1)) : subtreeSum t d = 0 := by
  have : t.filter (fun e => d.isPrefixOf e.1) = [] := by
    rw [List.filter_eq_nil_iff]
    intro e he
    simp [List.isPrefixOf_iff_prefix]
    exact h e he
  simp [subtreeSum, this]

theorem subtreeSum_eq_sumValues {t : List (FPath × Nat)} {d : FPath}
    (h : ∀ e ∈ t, d <+: e.1) : subtreeSum t d = sumValues t := by
  have : t.filter (fun e => d.isPrefixOf e.1) = t := by
    rw [List.filter_eq_self]
    intro e he
    simpa [List.isPrefixOf_iff_prefix] using h e he
  simp [subtreeSum, sumValues, this]

/-- Two single-component extensions of the same path that are prefixes of the
same path agree. -/
theorem singleton_extension_unique {p q : FPath} {m n : String}
    (hm : p ++ [m] <+: q) (hn : p ++ [n] <+: q) : m = n := by
  have h1 := List.prefix_iff_eq_take.mp hm
  have h2 := List.prefix_iff_eq_take.mp hn
  rw [List.length_append] at h1 h2
  simp only [List.length_singleton] at h1 h2
  have : p ++ [m] = p ++ [n] := by rw [h1, h2]
  simpa using this

/-- The component of a path just beyond a single-extension prefix. -/
theorem getElem_of_append_prefix {p q : FPath} {n : String}
    (h : p ++ [n] <+: q) : q[p.length]? = some n := by
  obtain ⟨r, hr⟩ := h
  rw [← hr, List.append_assoc, List.getElem?_append_right (le_refl p.length)]
  simp

/-- A proper prefix has strictly smaller length. -/
theorem proper_prefix_length_lt {d c : FPath} (h : d <+: c) (hne : d ≠ c) :
    d.length < c.length := by
  rcases Nat.lt_or_ge d.length c.length with hlt | hge
  · exact hlt
  · exact absurd (h.eq_of_length (Nat.le_antisymm h.length_le hge)) hne

/-- A proper prefix is a prefix of the path with its last component dropped. -/
theorem proper_prefix_dropLast {d c : FPath} (h : d <+: c) (hne : d ≠ c) :
    d <+: c.dropLast := by
  have hlt := proper_prefix_length_lt h hne
  have htake := List.prefix_iff_eq_take.mp h
  have hmin : d.length ⊓ (c.length - 1) = d.length := by omega
  have hd : d = (c.dropLast).take d.length := by
    rw [List.dropLast_eq_take, List.take_take, hmin]
    exact htake
  rw [hd]
  exact List.take_prefix _ _

/-- Conversely a prefix of the parent is a proper prefix. -/
theorem prefix_of_dropLast {d c : FPath} (h : d <+: c.dropLast) (hc : c ≠ []) :
    d <+: c ∧ d ≠ c := by
  refine ⟨h.trans (List.dropLast_prefix c), ?_⟩
  intro heq
  have hle := h.length_le
  rw [List.length_dropLast] at hle
  have : c.length ≤ c.length - 1 := heq ▸ hle
  have hpos : 0 < c.length := List.length_pos.mpr hc
  omega

/-- Every key of the walk table extends the walk root; keys contributed by a
subdirectory listing extend the corresponding child root and lie in that
child's walk table. -/
theorem walk_keys_structure :
    (∀ t : FSTree, ∀ (cfg : ScanConfig) (p q : FPath),
        q ∈ keysOf (walkDirs cfg p t) → p <+: q)
    ∧ (∀ l : List (String × FSTree), ∀ (cfg : ScanConfig) (p q : FPath),
        q ∈ keysOf (walkDirsList cfg p l) →
        ∃ n c, (n, c) ∈ l ∧ strHidden n = false ∧ (p ++ [n]) <+: q
          ∧ q ∈ keysOf (walkDirs cfg (p ++ [n]) c)) := by
  refine fstree_mutual_ind ?_ ?_ ?_
  · intro fs ds ihl cfg p q hq
    by_cases hs : should_skip_path cfg p = true
    · rw [show walkDirs cfg p (.node fs ds) = [] from by simp [walkDirs, hs]] at hq
      exact absurd hq (List.not_mem_nil _)
    · rw [show walkDirs cfg p (.node fs ds)
          = (p, directSize fs) :: walkDirsList cfg p ds from by simp [walkDirs, hs]] at hq
      rcases List.mem_cons.mp hq with heq | hmem
    -- keysOf of a cons is the head key consed on the tail keys
      · exact heq ▸ List.prefix_rfl
      · obtain ⟨n, c, _, _, hpre, _⟩ := ihl cfg p q hmem
        exact (List.prefix_append p [n]).trans hpre
  · intro cfg p q hq
    simp [walkDirsList, keysOf] at hq
  · intro n c rest ihc ihrest cfg p q hq
    rw [show walkDirsList cfg p ((n, c) :: rest)
        = (if strHidden n then [] else walkDirs cfg (p ++ [n]) c)
            ++ walkDirsList cfg p rest from rfl] at hq
    rw [keysOf, List.map_append, List.mem_append] at hq
    rcases hq with hl | hr
    · by_cases hn : strHidden n = true
      · rw [if_pos hn] at hl
        exact absurd hl (List.not_mem_nil _)
      · rw [if_neg hn] at hl
        have hpre := ihc cfg (p ++ [n]) q hl
        exact ⟨n, c, List.mem_cons_self _ _, Bool.eq_false_iff.mpr hn, hpre, hl⟩
    · obtain ⟨n', c', hmem, hh, hpre, hkeys⟩ := ihrest cfg p q hr
      exact ⟨n', c', List.mem_cons_of_mem _ hmem, hh, hpre, hkeys⟩

/-- With distinct sibling names, the walk-table keys are distinct. -/
theorem walk_keys_nodup :
    (∀ t : FSTree, ∀ (cfg : ScanConfig) (p : FPath), treeWF t = true →
        (keysOf (walkDirs cfg p t)).Nodup)
    ∧ (∀ l : List (String × FSTree), ∀ (cfg : ScanConfig) (p : FPath),
        namesNodup l = true → treeWFList l = true →
        (keysOf (walkDirsList cfg p l)).Nodup) := by
  refine fstree_mutual_ind ?_ ?_ ?_
  · intro fs ds ihl cfg p hwf
    have hw : namesNodup fs = true ∧ namesNodup ds = true ∧ treeWFList ds = true := by
      simpa [treeWF, Bool.and_eq_true, and_assoc] using hwf
    by_cases hs : should_skip_path cfg p = true
    · rw [show walkDirs cfg p (.node fs ds) = [] from by simp [walkDirs, hs]]
      exact List.nodup_nil
    · rw [show walkDirs cfg p (.node fs ds)
          = (p, directSize fs) :: walkDirsList cfg p ds from by simp [walkDirs, hs]]
      rw [keysOf, List.map_cons, List.nodup_cons]
      refine ⟨?_, ihl cfg p hw.2.1 hw.2.2⟩
      intro hmem
      obtain ⟨n, c, _, _, hpre, _⟩ := walk_keys_structure.2 ds cfg p p hmem
      have := hpre.length_le
      simp at this
  · intro cfg p _ _
    simp [walkDirsList, keysOf]
  · intro n c rest ihc ihrest cfg p hnd hwfl
    have hnd' : (rest.any (fun y => y.1 == n)) = false ∧ namesNodup rest = true := by
      simpa [namesNodup, Bool.and_eq_true_iff] using hnd
    have hwf' : treeWF c = true ∧ treeWFList rest = true := by
      simpa [treeWFList, Bool.and_eq_true_iff] using hwfl
    rw [show walkDirsList cfg p ((n, c) :: rest)
        = (if strHidden n then [] else walkDirs cfg (p ++ [n]) c)
            ++ walkDirsList cfg p rest from rfl]
    rw [keysOf, List.map_append, List.nodup_append]
    refine ⟨?_, ihrest cfg p hnd'.2 hwf'.2, ?_⟩
    · by_cases hn : strHidden n = true
      · simp [hn]
      · rw [if_neg hn]
        exact ihc cfg (p ++ [n]) hwf'.1
    · intro q hql hqr
      by_cases hn : strHidden n = true
      · rw [if_pos hn] at hql
        exact absurd hql (by simp)
      · rw [if_neg hn] at hql
        have hpre := walk_keys_structure.1 c cfg (p ++ [n]) q hql
        obtain ⟨n', c', hmem', _, hpre', _⟩ := walk_keys_structure.2 rest cfg p q hqr
        have hnn : n = n' := singleton_extension_unique hpre hpre'
        have hany : rest.any (fun y => y.1 == n) = true :=
          List.any_eq_true.mpr ⟨(n', c'), hmem', by simp [hnn]⟩
        rw [hnd'.1] at hany
        exact absurd hany (by simp)

/-- Every walk-table key other than the root has its parent in the table. -/
theorem walk_parent_closure :
    (∀ t : FSTree, ∀ (cfg : ScanConfig) (p q : FPath),
        q ∈ keysOf (walkDirs cfg p t) →
        q = p ∨ parentPath q ∈ keysOf (walkDirs cfg p t))
    ∧ (∀ l : List (String × FSTree), ∀ (cfg : ScanConfig) (p q : FPath),
        q ∈ keysOf (walkDirsList cfg p l) →
        (∃ n, q = p ++ [n]) ∨ parentPath q ∈ keysOf (walkDirsList cfg p l)) := by
  refine fstree_mutual_ind ?_ ?_ ?_
  · intro fs ds ihl cfg p q hq
    by_cases hs : should_skip_path cfg p = true
    · rw [show walkDirs cfg p (.node fs ds) = [] from by simp [walkDirs, hs]] at hq
      exact absurd hq (List.not_mem_nil _)
    · rw [show walkDirs cfg p (.node fs ds)
          = (p, directSize fs) :: walkDirsList cfg p ds from by simp [walkDirs, hs]] at hq ⊢
      rcases List.mem_cons.mp hq with heq | hmem
      · exact .inl heq
      · rcases ihl cfg p q hmem with ⟨n, rfl⟩ | hpar
        · right
          rw [show parentPath (p ++ [n]) = p from by simp [parentPath]]
          exact List.mem_cons_self _ _
        · exact .inr (List.mem_cons_of_mem _ hpar)
  · intro cfg p q hq
    simp [walkDirsList, keysOf] at hq
  · intro n c rest ihc ihrest cfg p q hq
    rw [show walkDirsList cfg p ((n, c) :: rest)
        = (if strHidden n then [] else walkDirs cfg (p ++ [n]) c)
            ++ walkDirsList cfg p rest from rfl] at hq ⊢
    rw [keysOf, List.map_append, List.mem_append] at hq ⊢
    rcases hq with hl | hr
    · by_cases hn : strHidden n = true
      · rw [if_pos hn] at hl
        exact absurd hl (by simp)
      · rw [if_neg hn] at hl
        rcases ihc cfg (p ++ [n]) q hl with heq | hpar
        · exact .inl ⟨n, heq⟩
        · rw [if_neg hn]
          exact .inr (.inl hpar)
    · rcases ihrest cfg p q hr with hex | hpar
      · exact .inl hex
      · exact .inr (.inr hpar)

/-- The values of the walk table sum to the specified pruned recursive size. -/
theorem walk_sumValues :
    (∀ t : FSTree, ∀ (cfg : ScanConfig) (p : FPath),
        sumValues (walkDirs cfg p t) = specRecursiveSize cfg p t)
    ∧ (∀ l : List (String × FSTree), ∀ (cfg : ScanConfig) (p : FPath),
        sumValues (walkDirsList cfg p l) = specRecursiveSizeList cfg p l) := by
  refine fstree_mutual_ind ?_ ?_ ?_
  · intro fs ds ihl cfg p
    by_cases hs : should_skip_path cfg p = true
    · simp [walkDirs, specRecursiveSize, hs, sumValues]
    · rw [show walkDirs cfg p (.node fs ds)
          = (p, directSize fs) :: walkDirsList cfg p ds from by simp [walkDirs, hs]]
      rw [show sumValues ((p, directSize fs) :: walkDirsList cfg p ds)
          = directSize fs + sumValues (walkDirsList cfg p ds) from by simp [sumValues]]
      rw [ihl cfg p]
      simp [specRecursiveSize, hs]
  · intro cfg p
    rfl
  · intro n c rest ihc ihrest cfg p
    by_cases hn : strHidden n = true
    · rw [show walkDirsList cfg p ((n, c) :: rest) = [] ++ walkDirsList cfg p rest from by
        simp [walkDirsList, hn]]
      rw [List.nil_append, ihrest cfg p]
      simp [specRecursiveSizeList, hn]
    · rw [show walkDirsList cfg p ((n, c) :: rest)
          = walkDirs cfg (p ++ [n]) c ++ walkDirsList cfg p rest from by
        simp [walkDirsList, hn]]
      rw [sumValues_append, ihc cfg (p ++ [n]), ihrest cfg p]
      simp [specRecursiveSizeList, hn]

/-- In a listing with distinct names, a name determines its subtree. -/
theorem namesNodup_unique {α : Type} {l : List (String × α)} (h : namesNodup l = true)
    {n : String} {c c' : α} (h1 : (n, c) ∈ l) (h2 : (n, c') ∈ l) : c = c' := by
  induction l with
  | nil => exact absurd h1 (List.not_mem_nil _)
  | cons x rest ih =>
    obtain ⟨m, b⟩ := x
    have h' : (rest.any (fun y => y.1 == m)) = false ∧ namesNodup rest = true := by
      simpa [namesNodup, Bool.and_eq_true_iff] using h
    have hnotin : ∀ cc : α, (m, cc) ∈ rest → False := by
      intro cc hcc
      have hany : rest.any (fun y => y.1 == m) = true :=
        List.any_eq_true.mpr ⟨(m, cc), hcc, by simp⟩
      rw [h'.1] at hany
      exact absurd hany (by simp)
    rcases List.mem_cons.mp h1 with e1 | m1 <;> rcases List.mem_cons.mp h2 with e2 | m2
    · have hc : c = b := congrArg Prod.snd e1
      have hc' : c' = b := congrArg Prod.snd e2
      rw [hc, hc']
    · have hn : n = m := congrArg Prod.fst e1
      exact absurd (hn ▸ m2) (hnotin c')
    · have hn : n = m := congrArg Prod.fst e2
      exact absurd (hn ▸ m1) (hnotin c)
    · exact ih h'.2 m1 m2

/-- Members of a well-formed listing are well-formed. -/
theorem treeWFList_mem {l : List (String × FSTree)} (h : treeWFList l = true)
    {x : String × FSTree} (hx : x ∈ l) : treeWF x.2 = true := by
  induction l with
  | nil => exact absurd hx (List.not_mem_nil _)
  | cons y rest ih =>
    obtain ⟨m, b⟩ := y
    have h' : treeWF b = true ∧ treeWFList rest = true := by
      simpa [treeWFList, Bool.and_eq_true_iff] using h
    rcases List.mem_cons.mp hx with e | m1
    · rw [e]
      exact h'.1
    · exact ih h'.2 m1

/-- The branch isolation step: restricted to paths extending one child root,
the subdirectory part of the table sums like that child's own walk table. -/
theorem walkList_subtreeSum_branch (cfg : ScanConfig) :
    ∀ (l : List (String × FSTree)) (p : FPath) (n : String) (c : FSTree) (d : FPath),
    namesNodup l = true → (n, c) ∈ l → strHidden n = false → (p ++ [n]) <+: d →
    subtreeSum (walkDirsList cfg p l) d = subtreeSum (walkDirs cfg (p ++ [n]) c) d := by
  intro l
  induction l with
  | nil =>
    intro p n c d _ hmem _ _
    exact absurd hmem (List.not_mem_nil _)
  | cons x rest ih =>
    intro p n c d hnd hmem hhid hpre
    obtain ⟨m, b⟩ := x
    have hnd' : (rest.any (fun y => y.1 == m)) = false ∧ namesNodup rest = true := by
      simpa [namesNodup, Bool.and_eq_true_iff] using hnd
    rw [show walkDirsList cfg p ((m, b) :: rest)
        = (if strHidden m then [] else walkDirs cfg (p ++ [m]) b)
            ++ walkDirsList cfg p rest from rfl, subtreeSum_append]
    by_cases hmn : m = n
    · subst hmn
      have hbc : b = c := by
        rcases List.mem_cons.mp hmem with e | mrest
        · exact (congrArg Prod.snd e).symm
        · exfalso
          have hany : rest.any (fun y => y.1 == m) = true :=
            List.any_eq_true.mpr ⟨(m, c), mrest, by simp⟩
          rw [hnd'.1] at hany
          exact absurd hany (by simp)
      subst hbc
      rw [if_neg (by simp [hhid])]
      have hz : subtreeSum (walkDirsList cfg p rest) d = 0 := by
        apply subtreeSum_eq_zero
        intro e he hdpre
        have hkey : e.1 ∈ keysOf (walkDirsList cfg p rest) :=
          List.mem_map_of_mem (fun y => y.1) he
        obtain ⟨n', c', hm', _, hpre', _⟩ := walk_keys_structure.2 rest cfg p e.1 hkey
        have hext : p ++ [m] <+: e.1 := hpre.trans hdpre
        have hmm : m = n' := singleton_extension_unique hext hpre'
        have hany : rest.any (fun y => y.1 == m) = true :=
          List.any_eq_true.mpr ⟨(n', c'), hm', by simp [hmm]⟩
        rw [hnd'.1] at hany
        exact absurd hany (by simp)
      rw [hz, Nat.add_zero]
    · have hmem' : (n, c) ∈ rest := by
        rcases List.mem_cons.mp hmem with e | mr
        · exact absurd (congrArg Prod.fst e).symm hmn
        · exact mr
      have hz : subtreeSum (if strHidden m then [] else walkDirs cfg (p ++ [m]) b) d = 0 := by
        by_cases hm : strHidden m = true
        · rw [if_pos hm]
          rfl
        · rw [if_neg hm]
          apply subtreeSum_eq_zero
          intro e he hdpre
          have hkey : e.1 ∈ keysOf (walkDirs cfg (p ++ [m]) b) :=
            List.mem_map_of_mem (fun y => y.1) he
          have hext1 := walk_keys_structure.1 b cfg (p ++ [m]) e.1 hkey
          have hext2 : p ++ [n] <+: e.1 := hpre.trans hdpre
          exact hmn (singleton_extension_unique hext1 hext2)
      rw [hz, ih p n c d hnd'.2 hmem' hhid hpre, Nat.zero_add]

/-- Localization of the walk-table subtree sum: the entries of the table
whose key extends a visited directory's path sum to the specified pruned
recursive size of that directory's subtree. -/
theorem walk_subtreeSum_at :
    (∀ t : FSTree, ∀ (cfg : ScanConfig) (p rel : FPath) (s' : FSTree), treeWF t = true →
        subtreeAt t rel = some s' → (p ++ rel) ∈ keysOf (walkDirs cfg p t) →
        subtreeSum (walkDirs cfg p t) (p ++ rel) = specRecursiveSize cfg (p ++ rel) s')
    ∧ (∀ l : List (String × FSTree), ∀ x ∈ l,
        (∀ (cfg : ScanConfig) (p rel : FPath) (s' : FSTree), treeWF x.2 = true →
          subtreeAt x.2 rel = some s' → (p ++ rel) ∈ keysOf (walkDirs cfg p x.2) →
          subtreeSum (walkDirs cfg p x.2) (p ++ rel) = specRecursiveSize cfg (p ++ rel) s')) := by
  refine fstree_mutual_ind ?_ ?_ ?_
  · intro fs ds ihl cfg p rel s' hwf hsub hmem
    have hw : namesNodup fs = true ∧ namesNodup ds = true ∧ treeWFList ds = true := by
      simpa [treeWF, Bool.and_eq_true, and_assoc] using hwf
    by_cases hs : should_skip_path cfg p = true
    · rw [show walkDirs cfg p (.node fs ds) = [] from by simp [walkDirs, hs]] at hmem
      exact absurd hmem (by simp [keysOf])
    · have hwalk : walkDirs cfg p (.node fs ds)
          = (p, directSize fs) :: walkDirsList cfg p ds := by simp [walkDirs, hs]
      cases rel with
      | nil =>
        have hs' : s' = FSTree.node fs ds := by
          have := hsub
          simp [subtreeAt] at this
          exact this.symm
        subst hs'
        rw [List.append_nil]
        rw [subtreeSum_eq_sumValues ?_, walk_sumValues.1]
        intro e he
        exact walk_keys_structure.1 (.node fs ds) cfg p e.1
          (List.mem_map_of_mem (fun y => y.1) he)
      | cons n rel' =>
        cases hfind : ds.find? (fun x => x.1 == n) with
        | none =>
          rw [show subtreeAt (FSTree.node fs ds) (n :: rel') = none from by
            simp [subtreeAt, hfind]] at hsub
          exact absurd hsub (by simp)
        | some x =>
          obtain ⟨m, c⟩ := x
          have hm : m = n := by
            have := List.find?_some hfind
            simpa [beq_iff_eq] using this
          subst hm
          have hsub' : subtreeAt c rel' = some s' := by
            simpa [subtreeAt, hfind] using hsub
          have hmemc : (m, c) ∈ ds := List.mem_of_find?_eq_some hfind
          have hmemL : (p ++ m :: rel') ∈ keysOf (walkDirsList cfg p ds) := by
            rw [hwalk] at hmem
            rcases List.mem_cons.mp hmem with heq | h
            · exfalso
              have : (p ++ m :: rel').length = p.length := by rw [heq]
              simp at this
            · exact h
          obtain ⟨n0, c0, hm0, hh0, hpre0, hkey0⟩ :=
            walk_keys_structure.2 ds cfg p (p ++ m :: rel') hmemL
          have hpm : p ++ [m] <+: p ++ m :: rel' := ⟨rel', (List.append_cons p m rel').symm⟩
          have hn0 : m = n0 := singleton_extension_unique hpm hpre0
          subst hn0
          have hc0 : c0 = c := namesNodup_unique hw.2.1 hm0 hmemc
          rw [hc0] at hkey0
          rw [hwalk, subtreeSum_cons]
          have hnotpre : (p ++ m :: rel').isPrefixOf p = false := by
            rw [Bool.eq_false_iff]
            intro hx
            have := (List.isPrefixOf_iff_prefix.mp hx).length_le
            simp at this
          rw [hnotpre]
          simp only [if_false, Bool.false_eq_true]
          rw [Nat.zero_add]
          rw [walkList_subtreeSum_branch cfg ds p m c (p ++ m :: rel') hw.2.1 hmemc hh0 hpm]
          have hrw : p ++ m :: rel' = (p ++ [m]) ++ rel' := List.append_cons p m rel'
          rw [hrw]
          exact ihl (m, c) hmemc cfg (p ++ [m]) rel' s' (treeWFList_mem hw.2.2 hmemc) hsub'
            (by rw [← hrw]; exact hkey0)
  · intro x hx
    exact absurd hx (List.not_mem_nil _)
  · intro n c rest ihc ihrest x hx
    rcases List.mem_cons.mp hx with e | m1
    · intro cfg p rel s' hwf hsub hmem
      have hx2 : x.2 = c := congrArg Prod.snd e
      rw [hx2] at hwf hsub hmem ⊢
      exact ihc cfg p rel s' hwf hsub hmem
    · exact ihrest x m1

theorem keysOf_bumpValue (t : List (FPath × Nat)) (p : FPath) (v : Nat) :
    keysOf (bumpValue t p v) = keysOf t := by
  induction t with
  | nil => rfl
  | cons e rest ih =>
    have hh : (if e.1 == p then (e.1, e.2 + v) else e).1 = e.1 := by
      by_cases h : (e.1 == p) = true <;> simp [h]
    have hc : keysOf (bumpValue (e :: rest) p v)
        = (if e.1 == p then (e.1, e.2 + v) else e).1 :: keysOf (bumpValue rest p v) := rfl
    rw [hc, hh, ih]
    rfl

theorem containsKey_iff_mem (t : List (FPath × Nat)) (p : FPath) :
    containsKey t p = true ↔ p ∈ keysOf t := by
  simp only [containsKey, List.any_eq_true, keysOf, List.mem_map]
  constructor
  · rintro ⟨e, he, hbe⟩
    exact ⟨e, he, beq_iff_eq.mp hbe⟩
  · rintro ⟨e, he, hbe⟩
    exact ⟨e, he, beq_iff_eq.mpr hbe⟩

theorem lookupTable_cons (e : FPath × Nat) (rest : List (FPath × Nat)) (p : FPath) :
    lookupTable (e :: rest) p
      = if e.1 == p then some e.2 else lookupTable rest p := by
  by_cases h : (e.1 == p) = true
  · rw [if_pos h, lookupTable,
      @List.find?_cons_of_pos _ (fun x : FPath × Nat => x.1 == p) e rest h]
  · rw [if_neg h, lookupTable,
      @List.find?_cons_of_neg _ (fun x : FPath × Nat => x.1 == p) e rest h, ← lookupTable]

theorem containsKey_cons (e : FPath × Nat) (rest : List (FPath × Nat)) (p : FPath) :
    containsKey (e :: rest) p = ((e.1 == p) || containsKey rest p) := by
  simp [containsKey]

theorem bumpValue_cons (e : FPath × Nat) (rest : List (FPath × Nat)) (p : FPath) (v : Nat) :
    bumpValue (e :: rest) p v
      = (if e.1 == p then (e.1, e.2 + v) else e) :: bumpValue rest p v := rfl

theorem eraseKey_cons (e : FPath × Nat) (rest : List (FPath × Nat)) (c : FPath) :
    eraseKey (e :: rest) c
      = if e.1 == c then eraseKey rest c else e :: eraseKey rest c := by
  by_cases h : (e.1 == c) = true
  · simp [eraseKey, List.filter_cons, h]
  · simp only [eraseKey, List.filter_cons]
    rw [show (!(e.1 == c)) = true from by simp [h], if_neg h]
    simp

theorem lookupTable_of_mem_keys {t : List (FPath × Nat)} {p : FPath}
    (h : p ∈ keysOf t) : ∃ v, lookupTable t p = some v := by
  induction t with
  | nil => exact absurd h (by simp [keysOf])
  | cons e rest ih =>
    rw [lookupTable_cons]
    by_cases he : (e.1 == p) = true
    · exact ⟨e.2, by rw [if_pos he]⟩
    · have h' : p ∈ keysOf rest := by
        rcases (by simpa [keysOf, eq_comm] using h : e.1 = p ∨ p ∈ keysOf rest) with hx | hx
        · exact absurd (beq_iff_eq.mpr hx) he
        · exact hx
      obtain ⟨v, hv⟩ := ih h'
      exact ⟨v, by rw [if_neg he, hv]⟩

theorem lookupTable_mem {t : List (FPath × Nat)} {p : FPath} {v : Nat}
    (h : lookupTable t p = some v) : (p, v) ∈ t := by
  induction t with
  | nil => exact absurd h (by simp [lookupTable])
  | cons e rest ih =>
    rw [lookupTable_cons] at h
    by_cases he : (e.1 == p) = true
    · rw [if_pos he] at h
      have hv : e.2 = v := Option.some.inj h
      have hk : e.1 = p := beq_iff_eq.mp he
      rw [show (p, v) = e from by rw [← hk, ← hv]]
      exact List.mem_cons_self _ _
    · rw [if_neg he] at h
      exact List.mem_cons_of_mem _ (ih h)

theorem lookup_bump_ne {t : List (FPath × Nat)} {p q : FPath} (v : Nat) (h : q ≠ p) :
    lookupTable (bumpValue t p v) q = lookupTable t q := by
  induction t with
  | nil => rfl
  | cons e rest ih =>
    rw [bumpValue_cons, lookupTable_cons, lookupTable_cons]
    by_cases hp : (e.1 == p) = true
    · have hq : (e.1 == q) = false := by
        rw [Bool.eq_false_iff]
        intro hx
        exact h (beq_iff_eq.mp hx ▸ beq_iff_eq.mp hp ▸ rfl : q = p)
      rw [if_pos hp]
      rw [show (((e.1, e.2 + v) : FPath × Nat).1 == q) = false from hq, if_neg (by simp),
        if_neg (by simp [hq]), ih]
    · rw [if_neg hp]
      by_cases hq : (e.1 == q) = true
      · rw [if_pos hq, if_pos hq]
      · rw [if_neg hq, if_neg hq, ih]

theorem lookup_bump_eq {t : List (FPath × Nat)} {p : FPath} {w : Nat} (v : Nat)
    (h : lookupTable t p = some w) :
    lookupTable (bumpValue t p v) p = some (w + v) := by
  induction t with
  | nil => exact absurd h (by simp [lookupTable])
  | cons e rest ih =>
    rw [lookupTable_cons] at h
    rw [bumpValue_cons, lookupTable_cons]
    by_cases hp : (e.1 == p) = true
    · rw [if_pos hp] at h
      rw [if_pos hp, show (((e.1, e.2 + v) : FPath × Nat).1 == p) = true from hp, if_pos rfl]
      rw [← Option.some.inj h]
    · rw [if_neg hp] at h
      rw [if_neg hp, if_neg hp, ih h]

theorem lookup_erase_ne {t : List (FPath × Nat)} {c q : FPath} (h : q ≠ c) :
    lookupTable (eraseKey t c) q = lookupTable t q := by
  induction t with
  | nil => rfl
  | cons e rest ih =>
    rw [eraseKey_cons, lookupTable_cons]
    by_cases hc : (e.1 == c) = true
    · have hq : (e.1 == q) = false := by
        rw [Bool.eq_false_iff]
        intro hx
        exact h (beq_iff_eq.mp hx ▸ beq_iff_eq.mp hc ▸ rfl : q = c)
    -- the erased head cannot be the queried key
      rw [if_pos hc, ih, if_neg (by simp [hq])]
    · rw [if_neg hc, lookupTable_cons, ih]

theorem containsKey_erase_ne {t : List (FPath × Nat)} {c q : FPath} (h : q ≠ c) :
    containsKey (eraseKey t c) q = containsKey t q := by
  induction t with
  | nil => rfl
  | cons e rest ih =>
    rw [eraseKey_cons, containsKey_cons]
    by_cases hc : (e.1 == c) = true
    · have hq : (e.1 == q) = false := by
        rw [Bool.eq_false_iff]
        intro hx
        exact h (beq_iff_eq.mp hx ▸ beq_iff_eq.mp hc ▸ rfl : q = c)
      rw [if_pos hc, ih, hq, Bool.false_or]
    · rw [if_neg hc, containsKey_cons, ih]

theorem bump_erase_comm {t : List (FPath × Nat)} {p c : FPath} (v : Nat) (h : p ≠ c) :
    bumpValue (eraseKey t c) p v = eraseKey (bumpValue t p v) c := by
  induction t with
  | nil => rfl
  | cons e rest ih =>
    by_cases hc : (e.1 == c) = true
    · have hp : (e.1 == p) = false := by
        rw [Bool.eq_false_iff]
        intro hx
        exact h (by rw [← beq_iff_eq.mp hx, beq_iff_eq.mp hc])
      calc bumpValue (eraseKey (e :: rest) c) p v
          = bumpValue (eraseKey rest c) p v := by rw [eraseKey_cons, if_pos hc]
        _ = eraseKey (bumpValue rest p v) c := ih
        _ = eraseKey (bumpValue (e :: rest) p v) c := by
            rw [bumpValue_cons, if_neg (by simp [hp]), eraseKey_cons, if_pos hc]
    · by_cases hp : (e.1 == p) = true
      · calc bumpValue (eraseKey (e :: rest) c) p v
            = (e.1, e.2 + v) :: bumpValue (eraseKey rest c) p v := by
              rw [eraseKey_cons, if_neg hc, bumpValue_cons, if_pos hp]
          _ = (e.1, e.2 + v) :: eraseKey (bumpValue rest p v) c := by rw [ih]
          _ = eraseKey (bumpValue (e :: rest) p v) c := by
              rw [bumpValue_cons, if_pos hp, eraseKey_cons,
                if_neg (show ¬(((e.1, e.2 + v) : FPath × Nat).1 == c) = true from by
                  simpa using hc)]
      · calc bumpValue (eraseKey (e :: rest) c) p v
            = e :: bumpValue (eraseKey rest c) p v := by
              rw [eraseKey_cons, if_neg hc, bumpValue_cons, if_neg hp]
          _ = e :: eraseKey (bumpValue rest p v) c := by rw [ih]
          _ = eraseKey (bumpValue (e :: rest) p v) c := by
              rw [bumpValue_cons, if_neg hp, eraseKey_cons, if_neg hc]

theorem rollupStep_some_char {t : List (FPath × Nat)} {a : FPath} {v : Nat}
    (hl : lookupTable t a = some v) :
    rollupStep t a
      = if containsKey t (parentPath a) then bumpValue t (parentPath a) v else t := by
  rw [rollupStep, hl]

theorem rollupStep_none_char {t : List (FPath × Nat)} {a : FPath}
    (hl : lookupTable t a = none) : rollupStep t a = t := by
  rw [rollupStep, hl]

theorem rollupStep_erase_comm {t : List (FPath × Nat)} {a c : FPath}
    (h1 : a ≠ c) (h2 : parentPath a ≠ c) :
    rollupStep (eraseKey t c) a = eraseKey (rollupStep t a) c := by
  cases hl : lookupTable t a with
  | none =>
    rw [rollupStep_none_char hl, rollupStep_none_char (by rw [lookup_erase_ne h1, hl])]
  | some v =>
    rw [rollupStep_some_char hl, rollupStep_some_char (by rw [lookup_erase_ne h1, hl])]
    rw [containsKey_erase_ne h2]
    by_cases hpar : containsKey t (parentPath a) = true
    · rw [if_pos hpar, if_pos hpar, bump_erase_comm v h2]
    · rw [if_neg hpar, if_neg hpar]

theorem foldl_rollup_erase_comm {order : List FPath} {t : List (FPath × Nat)} {c : FPath}
    (h : ∀ a ∈ order, a ≠ c ∧ parentPath a ≠ c) :
    order.foldl rollupStep (eraseKey t c) = eraseKey (order.foldl rollupStep t) c := by
  induction order generalizing t with
  | nil => rfl
  | cons a rest ih =>
    rw [List.foldl_cons, List.foldl_cons,
      rollupStep_erase_comm (h a (List.mem_cons_self _ _)).1 (h a (List.mem_cons_self _ _)).2]
    exact ih (fun b hb => h b (List.mem_cons_of_mem _ hb))

theorem lookup_rollupStep_ne {t : List (FPath × Nat)} {a d : FPath}
    (h : parentPath a ≠ d) : lookupTable (rollupStep t a) d = lookupTable t d := by
  cases hl : lookupTable t a with
  | none => rw [rollupStep_none_char hl]
  | some v =>
    rw [rollupStep_some_char hl]
    by_cases hpar : containsKey t (parentPath a) = true
    · rw [if_pos hpar, lookup_bump_ne v (fun hx => h hx.symm)]
    · rw [if_neg hpar]

theorem lookup_foldl_rollup_ne {order : List FPath} {t : List (FPath × Nat)} {d : FPath}
    (h : ∀ a ∈ order, parentPath a ≠ d) :
    lookupTable (order.foldl rollupStep t) d = lookupTable t d := by
  induction order generalizing t with
  | nil => rfl
  | cons a rest ih =>
    rw [List.foldl_cons, ih (fun b hb => h b (List.mem_cons_of_mem _ hb)),
      lookup_rollupStep_ne (h a (List.mem_cons_self _ _))]

theorem keysOf_rollupStep (t : List (FPath × Nat)) (a : FPath) :
    keysOf (rollupStep t a) = keysOf t := by
  cases hl : lookupTable t a with
  | none => rw [rollupStep_none_char hl]
  | some v =>
    rw [rollupStep_some_char hl]
    by_cases hpar : containsKey t (parentPath a) = true
    · rw [if_pos hpar, keysOf_bumpValue]
    · rw [if_neg hpar]

theorem keysOf_foldl_rollup (order : List FPath) (t : List (FPath × Nat)) :
    keysOf (order.foldl rollupStep t) = keysOf t := by
  induction order generalizing t with
  | nil => rfl
  | cons a rest ih =>
    rw [List.foldl_cons, ih, keysOf_rollupStep]

theorem bump_absent {t : List (FPath × Nat)} {p : FPath} (v : Nat)
    (h : p ∉ keysOf t) : bumpValue t p v = t := by
  induction t with
  | nil => rfl
  | cons e rest ih =>
    have hne : (e.1 == p) = false := by
      rw [Bool.eq_false_iff]
      intro hx
      exact h (by simp [keysOf, beq_iff_eq.mp hx])
    rw [bumpValue_cons, if_neg (by simp [hne]), ih (fun hx => h (by simp [keysOf]; right; simpa [keysOf] using hx))]

theorem eraseKey_absent {t : List (FPath × Nat)} {c : FPath}
    (h : c ∉ keysOf t) : eraseKey t c = t := by
  induction t with
  | nil => rfl
  | cons e rest ih =>
    have hne : (e.1 == c) = false := by
      rw [Bool.eq_false_iff]
      intro hx
      exact h (by simp [keysOf, beq_iff_eq.mp hx])
    rw [eraseKey_cons, if_neg (by simp [hne]), ih (fun hx => h (by simp [keysOf]; right; simpa [keysOf] using hx))]

theorem subtreeSum_bump {t : List (FPath × Nat)} {par : FPath} (v : Nat) (d : FPath)
    (hnd : (keysOf t).Nodup) (hmem : par ∈ keysOf t) :
    subtreeSum (bumpValue t par v) d
      = subtreeSum t d + (if d.isPrefixOf par then v else 0) := by
  induction t with
  | nil => exact absurd hmem (by simp [keysOf])
  | cons e rest ih =>
    obtain ⟨k, w⟩ := e
    have hnd' : k ∉ keysOf rest ∧ (keysOf rest).Nodup := by
      simpa [keysOf] using hnd
    rw [bumpValue_cons]
    by_cases hk : (k = par)
    · subst hk
      rw [if_pos (by simp), bump_absent v hnd'.1]
      show subtreeSum ((k, w + v) :: rest) d = _
      rw [subtreeSum_cons, subtreeSum_cons]
      by_cases hd : d.isPrefixOf k = true <;> (simp [hd]; try omega)
    · have hmem' : par ∈ keysOf rest := by
        rcases (by simpa [keysOf] using hmem : par = k ∨ par ∈ keysOf rest) with hx | hx
        · exact absurd hx.symm hk
        · exact hx
      rw [if_neg (by simpa using hk)]
      show subtreeSum ((k, w) :: bumpValue rest par v) d = _
      rw [subtreeSum_cons, subtreeSum_cons, ih hnd'.2 hmem']
      omega

theorem subtreeSum_erase {t : List (FPath × Nat)} {c : FPath} {v : Nat} (d : FPath)
    (hnd : (keysOf t).Nodup) (hl : lookupTable t c = some v) :
    subtreeSum t d = subtreeSum (eraseKey t c) d + (if d.isPrefixOf c then v else 0) := by
  induction t with
  | nil => exact absurd hl (by simp [lookupTable])
  | cons e rest ih =>
    obtain ⟨k, w⟩ := e
    have hnd' : k ∉ keysOf rest ∧ (keysOf rest).Nodup := by
      simpa [keysOf] using hnd
    rw [lookupTable_cons] at hl
    rw [eraseKey_cons]
    by_cases hk : ((k, w).1 == c) = true
    · have hkc : k = c := beq_iff_eq.mp hk
      rw [if_pos hk] at hl
      have hv : w = v := Option.some.inj hl
      rw [if_pos hk, eraseKey_absent (hkc ▸ hnd'.1), subtreeSum_cons, hkc, hv]
      omega
    · rw [if_neg hk] at hl ⊢
      rw [subtreeSum_cons, subtreeSum_cons, ih hnd'.2 hl]
      omega

theorem subtreeSum_single {t : List (FPath × Nat)} {c : FPath} {v : Nat}
    (hnd : (keysOf t).Nodup) (hl : lookupTable t c = some v)
    (hnoext : ∀ q ∈ keysOf t, c <+: q → q = c) :
    subtreeSum t c = v := by
  rw [subtreeSum_erase c hnd hl, if_pos (by simp [List.isPrefixOf_iff_prefix])]
  have hz : subtreeSum (eraseKey t c) c = 0 := by
    apply subtreeSum_eq_zero
    intro e he hpre
    have hek : e ∈ t ∧ (e.1 == c) = false := by
      have := List.mem_filter.mp he
      exact ⟨this.1, by simpa using this.2⟩
    have : e.1 = c := hnoext e.1 (List.mem_map_of_mem (fun y => y.1) hek.1) hpre
    rw [this] at hek
    simpa using hek.2
  rw [hz, Nat.zero_add]

theorem keysOf_eraseKey (t : List (FPath × Nat)) (c : FPath) :
    keysOf (eraseKey t c) = (keysOf t).filter (fun k => !(k == c)) := by
  induction t with
  | nil => rfl
  | cons e rest ih =>
    rw [eraseKey_cons]
    by_cases hc : (e.1 == c) = true
    · rw [if_pos hc, ih]
      have : keysOf (e :: rest) = e.1 :: keysOf rest := rfl
      rw [this, List.filter_cons, if_neg (by simp [hc])]
    · rw [if_neg hc]
      have h1 : keysOf (e :: eraseKey rest c) = e.1 :: keysOf (eraseKey rest c) := rfl
      have h2 : keysOf (e :: rest) = e.1 :: keysOf rest := rfl
      rw [h1, h2, ih, List.filter_cons, if_pos (by simp [hc])]

/-- Core correctness of the rollup loop: folding the rollup step over any
processing order that lists every key exactly once and never processes a path
before one of its proper extensions leaves, at every key, the sum of the
initial values over that key's extension closure — provided the key set is
closed under taking parents (except at its minimal elements) and contains no
root path. -/
theorem rollup_fold_correct :
    ∀ (order : List FPath) (t : List (FPath × Nat)),
      (keysOf t).Nodup →
      order.Perm (keysOf t) →
      (∀ q ∈ keysOf t, q ≠ []) →
      order.Pairwise (fun a b => ¬(a <+: b ∧ a ≠ b)) →
      (∀ q ∈ keysOf t, (∃ e ∈ keysOf t, e <+: q ∧ e ≠ q) → parentPath q ∈ keysOf t) →
      ∀ d ∈ keysOf t, lookupTable (order.foldl rollupStep t) d = some (subtreeSum t d) := by
  intro order
  induction order with
  | nil =>
    intro t hnd hperm hne hpw hcl d hd
    rw [hperm.symm.eq_nil] at hd
    exact absurd hd (List.not_mem_nil _)
  | cons c rest ih =>
    intro t hnd hperm hne hpw hcl d hd
    have hcmem : c ∈ keysOf t := hperm.subset (List.mem_cons_self _ _)
    obtain ⟨v, hv⟩ := lookupTable_of_mem_keys hcmem
    have hpwc : ∀ b ∈ rest, ¬(c <+: b ∧ c ≠ b) := (List.pairwise_cons.mp hpw).1
    have hpwrest := (List.pairwise_cons.mp hpw).2
    have hond : (c :: rest).Nodup := hperm.nodup_iff.mpr hnd
    have hcnotin : c ∉ rest := (List.nodup_cons.mp hond).1
    have hcne : c ≠ [] := hne c hcmem
    have hkeyssplit : ∀ q ∈ keysOf t, q = c ∨ q ∈ rest := by
      intro q hq
      exact List.mem_cons.mp (hperm.mem_iff.mpr hq)
    have hnoext : ∀ q ∈ keysOf t, c <+: q → q = c := by
      intro q hq hcq
      by_contra hqne
      rcases hkeyssplit q hq with h | h
      · exact hqne h
      · exact hpwc q h ⟨hcq, fun hx => hqne hx.symm⟩
    have hsubc : subtreeSum t c = v := subtreeSum_single hnd hv hnoext
    have hparc_ne : ∀ a ∈ rest, parentPath a ≠ c := by
      intro a ha hpc
      have hane : a ≠ [] := hne a (hperm.subset (List.mem_cons_of_mem _ ha))
      have hpp := prefix_of_dropLast (List.prefix_rfl (l := a.dropLast)) hane
      exact hpwc a ha ⟨hpc ▸ hpp.1, hpc ▸ hpp.2⟩
    have hcparc : c ≠ parentPath c := by
      intro hx
      exact (prefix_of_dropLast (List.prefix_rfl (l := c.dropLast)) hcne).2 hx.symm
    by_cases hd_eq : d = c
    · subst hd_eq
      rw [List.foldl_cons, lookup_foldl_rollup_ne hparc_ne, rollupStep_some_char hv]
      by_cases hpar : containsKey t (parentPath d) = true
      · rw [if_pos hpar, lookup_bump_ne v hcparc, hv, hsubc]
      · rw [if_neg hpar, hv, hsubc]
    · have hdrest : d ∈ rest := by
        rcases hkeyssplit d hd with h | h
        · exact absurd h hd_eq
        · exact h
      have hrest_ne : ∀ a ∈ rest, a ≠ c ∧ parentPath a ≠ c :=
        fun a ha => ⟨fun hx => hcnotin (hx ▸ ha), hparc_ne a ha⟩
      rw [List.foldl_cons]
      rw [show lookupTable (rest.foldl rollupStep (rollupStep t c)) d
          = lookupTable (eraseKey (rest.foldl rollupStep (rollupStep t c)) c) d from
        (lookup_erase_ne hd_eq).symm]
      rw [← foldl_rollup_erase_comm hrest_ne]
      have hk1 : keysOf (rollupStep t c) = keysOf t := keysOf_rollupStep t c
      have hk2 : keysOf (eraseKey (rollupStep t c) c)
          = (keysOf t).filter (fun k => !(k == c)) := by
        rw [keysOf_eraseKey, hk1]
      have hpermrest : rest.Perm (keysOf (eraseKey (rollupStep t c) c)) := by
        rw [hk2]
        have h1 : ((c :: rest).filter (fun k => !(k == c))).Perm
            ((keysOf t).filter (fun k => !(k == c))) := hperm.filter _
        have h2 : (c :: rest).filter (fun k => !(k == c)) = rest := by
          rw [List.filter_cons, if_neg (by simp)]
          refine List.filter_eq_self.mpr (fun a ha => ?_)
          have hac : a ≠ c := fun hx => hcnotin (hx ▸ ha)
          simp [hac]
        rw [h2] at h1
        exact h1
      have hnd2 : (keysOf (eraseKey (rollupStep t c) c)).Nodup := by
        rw [hk2]
        exact hnd.filter _
      have hsubset2 : ∀ q ∈ keysOf (eraseKey (rollupStep t c) c), q ∈ keysOf t ∧ q ≠ c := by
        intro q hq
        rw [hk2] at hq
        have := List.mem_filter.mp hq
        exact ⟨this.1, by simpa using this.2⟩
      have hne2 : ∀ q ∈ keysOf (eraseKey (rollupStep t c) c), q ≠ [] :=
        fun q hq => hne q (hsubset2 q hq).1
      have hcl2 : ∀ q ∈ keysOf (eraseKey (rollupStep t c) c),
          (∃ e ∈ keysOf (eraseKey (rollupStep t c) c), e <+: q ∧ e ≠ q) →
          parentPath q ∈ keysOf (eraseKey (rollupStep t c) c) := by
        rintro q hq ⟨e, he, hep⟩
        have hq' := hsubset2 q hq
        have he' := hsubset2 e he
        have hpar := hcl q hq'.1 ⟨e, he'.1, hep⟩
        have hpqc : parentPath q ≠ c := by
          intro hx
          have hqne : q ≠ [] := hne q hq'.1
          have hpp := prefix_of_dropLast (List.prefix_rfl (l := q.dropLast)) hqne
          have hqrest : q ∈ rest := by
            rcases hkeyssplit q hq'.1 with h | h
            · exact absurd h hq'.2
            · exact h
          exact hpwc q hqrest ⟨hx ▸ hpp.1, hx ▸ hpp.2⟩
        rw [hk2]
        exact List.mem_filter.mpr ⟨hpar, by simpa using hpqc⟩
      have hd2 : d ∈ keysOf (eraseKey (rollupStep t c) c) := by
        rw [hk2]
        exact List.mem_filter.mpr ⟨hd, by simpa using hd_eq⟩
      rw [ih (eraseKey (rollupStep t c) c) hnd2 hpermrest hne2 hpwrest hcl2 d hd2]
      congr 1
      by_cases hpar : containsKey t (parentPath c) = true
      · have ht1eq : rollupStep t c = bumpValue t (parentPath c) v := by
          rw [rollupStep_some_char hv, if_pos hpar]
        have hparmem : parentPath c ∈ keysOf t := (containsKey_iff_mem t _).mp hpar
        have hb : subtreeSum (rollupStep t c) d
            = subtreeSum t d + (if d.isPrefixOf (parentPath c) then v else 0) := by
          rw [ht1eq]
          exact subtreeSum_bump v d hnd hparmem
        have hlc1 : lookupTable (rollupStep t c) c = some v := by
          rw [ht1eq, lookup_bump_ne v hcparc, hv]
        have he : subtreeSum (rollupStep t c) d
            = subtreeSum (eraseKey (rollupStep t c) c) d
                + (if d.isPrefixOf c then v else 0) :=
          subtreeSum_erase d (by rw [hk1]; exact hnd) hlc1
        have hcond : (d.isPrefixOf c) = (d.isPrefixOf (parentPath c)) := by
          by_cases h1 : d.isPrefixOf c = true
          · have hdp := proper_prefix_dropLast (List.isPrefixOf_iff_prefix.mp h1) hd_eq
            rw [h1, eq_comm, List.isPrefixOf_iff_prefix]
            exact hdp
          · have h2 : d.isPrefixOf (parentPath c) = false := by
              rw [Bool.eq_false_iff]
              intro hx
              exact h1 (List.isPrefixOf_iff_prefix.mpr
                ((List.isPrefixOf_iff_prefix.mp hx).trans (List.dropLast_prefix c)))
            rw [h2, Bool.eq_false_iff.mpr h1]
          -- if the parent holds the prefix then so does the child and conversely
        rw [hcond] at he
        omega
      · have ht1eq : rollupStep t c = t := by
          rw [rollupStep_some_char hv, if_neg hpar]
        have hdc_false : d.isPrefixOf c = false := by
          rw [Bool.eq_false_iff]
          intro h1
          have hdp : d <+: c ∧ d ≠ c := ⟨List.isPrefixOf_iff_prefix.mp h1, hd_eq⟩
          exact hpar ((containsKey_iff_mem t _).mpr (hcl c hcmem ⟨d, hd, hdp⟩))
        have he : subtreeSum t d
            = subtreeSum (eraseKey (rollupStep t c) c) d
                + (if d.isPrefixOf c then v else 0) := by
          rw [show eraseKey (rollupStep t c) c = eraseKey t c from by rw [ht1eq]]
          exact subtreeSum_erase d hnd hv
        rw [hdc_false] at he
        simp at he
        omega

/-- The descending-depth processing order is a permutation of the keys and,
when no key is the filesystem root, never processes a path before one of its
proper extensions. -/
theorem depthDescOrder_facts (ps : List FPath) :
    (depthDescOrder ps).Perm ps
    ∧ ((∀ q ∈ ps, q ≠ []) →
        (depthDescOrder ps).Pairwise (fun a b => ¬(a <+: b ∧ a ≠ b))) := by
  constructor
  · exact List.perm_insertionSort _ ps
  · intro hne
    letI : IsTotal FPath (fun a b => sepCount b ≤ sepCount a) :=
      ⟨fun a b => le_total (sepCount b) (sepCount a)⟩
    letI : IsTrans FPath (fun a b => sepCount b ≤ sepCount a) :=
      ⟨fun a b c h1 h2 => le_trans h2 h1⟩
    have hsorted : List.Pairwise (fun a b => sepCount b ≤ sepCount a) (depthDescOrder ps) :=
      List.sorted_insertionSort _ ps
    refine hsorted.imp_of_mem ?_
    intro a b ha hb hab
    rintro ⟨hpre, hne'⟩
    have hamem : a ∈ ps := (List.perm_insertionSort _ ps).subset ha
    have hbmem : b ∈ ps := (List.perm_insertionSort _ ps).subset hb
    have hane : a ≠ [] := hne a hamem
    have hbne : b ≠ [] := hne b hbmem
    have hlen := proper_prefix_length_lt hpre hne'
    have h1 : 0 < a.length := List.length_pos.mpr hane
    have h2 : 0 < b.length := List.length_pos.mpr hbne
    rw [sepCount, sepCount] at hab
    omega

/-- Claim C1 (amended) — directory-mode rollup correctness away from the
filesystem root: for every search directory other than `/`, after the walk
phase and the descending-depth rollup pass, the table entry of every visited,
non-pruned directory equals the sum of the sizes of all non-hidden,
non-excluded files reachable under it, excluding files under pruned
subtrees (formalized as the specified pruned recursive size of its subtree).
For search root `/` itself the invariant fails: `os.path.dirname("/")` is
`"/"`, which is in the table, so the rollup adds the root's entry into
itself and doubles its direct size (see the separate root counterexample).
Sibling names are distinct, as on a real filesystem. -/
theorem dirs_rollup_table_correct (cfg : ScanConfig) (p₀ : FPath) (t : FSTree) (rel : FPath)
    (sub : FSTree) (hroot : p₀ ≠ []) (hwf : treeWF t = true)
    (hsub : subtreeAt t rel = some sub)
    (hmem : (p₀ ++ rel) ∈ keysOf (dirScanTable cfg p₀ t)) :
    lookupTable (dirScanTable cfg p₀ t) (p₀ ++ rel)
      = some (specRecursiveSize cfg (p₀ ++ rel) sub) := by
  have hkeys : keysOf (dirScanTable cfg p₀ t) = keysOf (walkDirs cfg p₀ t) :=
    keysOf_foldl_rollup _ _
  rw [hkeys] at hmem
  have hnd : (keysOf (walkDirs cfg p₀ t)).Nodup := walk_keys_nodup.1 t cfg p₀ hwf
  have hne : ∀ q ∈ keysOf (walkDirs cfg p₀ t), q ≠ [] := by
    intro q hq hqnil
    have hp := walk_keys_structure.1 t cfg p₀ q hq
    rw [hqnil] at hp
    exact hroot (List.prefix_nil.mp hp)
  have hcl : ∀ q ∈ keysOf (walkDirs cfg p₀ t),
      (∃ e ∈ keysOf (walkDirs cfg p₀ t), e <+: q ∧ e ≠ q) →
      parentPath q ∈ keysOf (walkDirs cfg p₀ t) := by
    rintro q hq ⟨e, he, hep⟩
    rcases walk_parent_closure.1 t cfg p₀ q hq with heq | hpar
    · exfalso
      have hpe := walk_keys_structure.1 t cfg p₀ e he
      have hqp : e <+: p₀ := heq ▸ hep.1
      have hp0e : p₀ = e :=
        hpe.eq_of_length (Nat.le_antisymm hqp.length_le hpe.length_le).symm
      exact hep.2 (hp0e.symm.trans heq.symm)
    · exact hpar
  have hfacts := depthDescOrder_facts (keysOf (walkDirs cfg p₀ t))
  have hmain := rollup_fold_correct (depthDescOrder (keysOf (walkDirs cfg p₀ t)))
    (walkDirs cfg p₀ t) hnd hfacts.1 hne (hfacts.2 hne) hcl (p₀ ++ rel) hmem
  have hdst : dirScanTable cfg p₀ t
      = (depthDescOrder (keysOf (walkDirs cfg p₀ t))).foldl rollupStep (walkDirs cfg p₀ t) :=
    rfl
  rw [hdst, hmain]
  congr 1
  exact walk_subtreeSum_at.1 t cfg p₀ rel sub hwf hsub hmem

theorem dirs_rollup_table_correct_witness :
    lookupTable
        (dirScanTable ⟨[], []⟩ ["r"]
          (.node [("a.txt", some 100)]
            [("d1", .node [("b.bin", some 7)] [("d2", .node [("c.bin", some 5)] [])])]))
        (["r"] ++ ["d1"])
      = some (specRecursiveSize ⟨[], []⟩ (["r"] ++ ["d1"])
          (.node [("b.bin", some 7)] [("d2", .node [("c.bin", some 5)] [])])) :=
  dirs_rollup_table_correct ⟨[], []⟩ ["r"]
    (.node [("a.txt", some 100)]
      [("d1", .node [("b.bin", some 7)] [("d2", .node [("c.bin", some 5)] [])])])
    ["d1"] (.node [("b.bin", some 7)] [("d2", .node [("c.bin", some 5)] [])])
    (by decide) (by decide) rfl (by decide)

theorem exists_min_by {α : Type} (f : α → Nat) :
    ∀ (l : List α), l ≠ [] → ∃ a ∈ l, ∀ b ∈ l, f a ≤ f b := by
  intro l
  induction l with
  | nil => intro h; exact absurd rfl h
  | cons x rest ih =>
    intro _
    by_cases hrest : rest = []
    · subst hrest
      refine ⟨x, List.mem_cons_self _ _, ?_⟩
      intro b hb
      rcases List.mem_cons.mp hb with rfl | hb'
      · exact le_refl _
      · exact absurd hb' (List.not_mem_nil _)
    · obtain ⟨a, ha, hmin⟩ := ih hrest
      by_cases hc : f x ≤ f a
      · refine ⟨x, List.mem_cons_self _ _, ?_⟩
        intro b hb
        rcases List.mem_cons.mp hb with rfl | hb'
        · exact le_refl _
        · exact le_trans hc (hmin b hb')
      · refine ⟨a, List.mem_cons_of_mem _ ha, ?_⟩
        intro b hb
        rcases List.mem_cons.mp hb with rfl | hb'
        · exact le_of_not_le hc
        · exact hmin b hb'

/-- Fold invariant of `_calculate_total_bytes`: processing the ascending-depth
sorted items with the already-counted good paths accumulated from the
processed prefix, the loop adds exactly the sizes of the remaining entries
with no proper ancestor among the items. -/
theorem totalGo_spec (items : List (FPath × Nat))
    (hnd : (keysOf items).Nodup) (hne : ∀ q ∈ keysOf items, q ≠ []) :
    ∀ (todo done : List (FPath × Nat)),
      List.insertionSort (fun a b => sepCount a.1 ≤ sepCount b.1) items = done ++ todo →
      totalGo todo
          ((done.filter (fun e => !(hasProperAncestorIn items e.1))).map (fun e => e.1))
        = sumValues (todo.filter (fun e => !(hasProperAncestorIn items e.1))) := by
  have hperm : (List.insertionSort (fun a b => sepCount a.1 ≤ sepCount b.1) items).Perm items :=
    List.perm_insertionSort _ _
  have hkperm : (keysOf (List.insertionSort (fun a b => sepCount a.1 ≤ sepCount b.1) items)).Perm
      (keysOf items) := hperm.map (fun e : FPath × Nat => e.1)
  have hkeysnodupS :
      (keysOf (List.insertionSort (fun a b => sepCount a.1 ≤ sepCount b.1) items)).Nodup :=
    hkperm.nodup_iff.mpr hnd
  letI : IsTotal (FPath × Nat) (fun a b => sepCount a.1 ≤ sepCount b.1) :=
    ⟨fun a b => le_total (sepCount a.1) (sepCount b.1)⟩
  letI : IsTrans (FPath × Nat) (fun a b => sepCount a.1 ≤ sepCount b.1) :=
    ⟨fun a b c h1 h2 => le_trans h1 h2⟩
  have hsorted : List.Pairwise (fun a b => sepCount a.1 ≤ sepCount b.1)
      (List.insertionSort (fun a b => sepCount a.1 ≤ sepCount b.1) items) :=
    List.sorted_insertionSort _ items
  intro todo
  induction todo with
  | nil =>
    intro done hS
    rfl
  | cons x rest ih =>
    intro done hS
    obtain ⟨xp, xs⟩ := x
    have hxS : (xp, xs) ∈ List.insertionSort (fun a b => sepCount a.1 ≤ sepCount b.1) items := by
      rw [hS]
      exact List.mem_append.mpr (.inr (List.mem_cons_self _ _))
    have hxitems : (xp, xs) ∈ items := hperm.subset hxS
    have hxpne : xp ≠ [] := hne xp (List.mem_map_of_mem (fun e => e.1) hxitems)
    have hkeysS : keysOf (List.insertionSort (fun a b => sepCount a.1 ≤ sepCount b.1) items)
        = keysOf done ++ xp :: keysOf rest := by
      rw [hS, keysOf, List.map_append]
      rfl
    have hdisj : ∀ e ∈ done, e.1 ≠ xp := by
      intro e he heq
      rw [hkeysS] at hkeysnodupS
      have := (List.nodup_append.mp hkeysnodupS).2.2
      exact this (List.mem_map_of_mem (fun y => y.1) he)
        (by rw [heq]; exact List.mem_cons_self _ _)
    have hblocked_iff :
        (((done.filter (fun e => !(hasProperAncestorIn items e.1))).map
            (fun e => e.1)).any (fun par => countedBlocks par xp) = true)
          ↔ hasProperAncestorIn items xp = true := by
      constructor
      · intro hb
        obtain ⟨par, hparmem, hcb⟩ := List.any_eq_true.mp hb
        obtain ⟨e, hef, hepar⟩ := List.mem_map.mp hparmem
        have hedone : e ∈ done := (List.mem_filter.mp hef).1
        have henex : e.1 ≠ xp := hdisj e hedone
        rw [countedBlocks] at hcb
        rcases Bool.or_eq_true_iff.mp hcb with h1 | h2
        · exact absurd (by rw [hepar]; exact beq_iff_eq.mp h1) henex
        · have hpre : par.isPrefixOf xp = true := (Bool.and_eq_true_iff.mp h2).2
          refine List.any_eq_true.mpr ⟨e, hperm.subset (by rw [hS]; exact List.mem_append.mpr (.inl hedone)), ?_⟩
          rw [Bool.and_eq_true_iff]
          exact ⟨by rw [hepar]; exact hpre, by simpa using henex⟩
      · intro hpa
        obtain ⟨o0, ho0, hp0⟩ := List.any_eq_true.mp hpa
        have hAne : items.filter (fun o => o.1.isPrefixOf xp && !(o.1 == xp)) ≠ [] :=
          List.ne_nil_of_mem (List.mem_filter.mpr ⟨ho0, hp0⟩)
        obtain ⟨o, hoA, homin⟩ := exists_min_by (fun e => e.1.length) _ hAne
        have hoitems : o ∈ items := (List.mem_filter.mp hoA).1
        have hopred := (List.mem_filter.mp hoA).2
        have hoprefix : o.1 <+: xp :=
          List.isPrefixOf_iff_prefix.mp (Bool.and_eq_true_iff.mp hopred).1
        have honex : o.1 ≠ xp := by simpa using (Bool.and_eq_true_iff.mp hopred).2
        have ho1ne : o.1 ≠ [] := hne o.1 (List.mem_map_of_mem (fun e => e.1) hoitems)
        have holen := proper_prefix_length_lt hoprefix honex
        have hogood : hasProperAncestorIn items o.1 = false := by
          rw [Bool.eq_false_iff]
          intro hcontra
          obtain ⟨o', ho', hp'⟩ := List.any_eq_true.mp hcontra
          have hp'pre : o'.1 <+: o.1 :=
            List.isPrefixOf_iff_prefix.mp (Bool.and_eq_true_iff.mp hp').1
          have hp'ne : o'.1 ≠ o.1 := by simpa using (Bool.and_eq_true_iff.mp hp').2
          have h1 := proper_prefix_length_lt hp'pre hp'ne
          have ho'A : o' ∈ items.filter (fun o => o.1.isPrefixOf xp && !(o.1 == xp)) := by
            refine List.mem_filter.mpr ⟨ho', ?_⟩
            rw [Bool.and_eq_true_iff]
            refine ⟨List.isPrefixOf_iff_prefix.mpr (hp'pre.trans hoprefix), ?_⟩
            have : o'.1 ≠ xp := by
              intro heq
              rw [heq] at h1
              omega
            simpa using this
          have := homin o' ho'A
          omega
        have hoS : o ∈ List.insertionSort (fun a b => sepCount a.1 ≤ sepCount b.1) items :=
          hperm.mem_iff.mpr hoitems
        rw [hS] at hoS
        rcases List.mem_append.mp hoS with hdone | hxr
        · refine List.any_eq_true.mpr ⟨o.1,
            List.mem_map_of_mem (fun e => e.1)
              (List.mem_filter.mpr ⟨hdone, by simp [hogood]⟩), ?_⟩
          rw [countedBlocks, Bool.or_eq_true_iff]
          right
          rw [Bool.and_eq_true_iff]
          exact ⟨by simp [ho1ne], List.isPrefixOf_iff_prefix.mpr hoprefix⟩
        · exfalso
          rcases List.mem_cons.mp hxr with heq | hrest'
          · exact honex (by rw [heq])
          · have hpw := (List.pairwise_append.mp (hS ▸ hsorted)).2.1
            have hle := (List.pairwise_cons.mp hpw).1 o hrest'
            have hx1pos : 0 < xp.length := List.length_pos.mpr hxpne
            have ho1pos : 0 < o.1.length := List.length_pos.mpr ho1ne
            have hle2 : sepCount xp ≤ sepCount o.1 := hle
            rw [sepCount, sepCount] at hle2
            omega
    have hunf : totalGo ((xp, xs) :: rest)
        ((done.filter (fun e => !(hasProperAncestorIn items e.1))).map (fun e => e.1))
        = if ((done.filter (fun e => !(hasProperAncestorIn items e.1))).map
              (fun e => e.1)).any (fun par => countedBlocks par xp)
          then totalGo rest
            ((done.filter (fun e => !(hasProperAncestorIn items e.1))).map (fun e => e.1))
          else xs + totalGo rest
            (((done.filter (fun e => !(hasProperAncestorIn items e.1))).map
              (fun e => e.1)) ++ [xp]) := rfl
    have hS' : List.insertionSort (fun a b => sepCount a.1 ≤ sepCount b.1) items
        = (done ++ [(xp, xs)]) ++ rest := by
      rw [hS, List.append_assoc]
      rfl
    by_cases hb : ((done.filter (fun e => !(hasProperAncestorIn items e.1))).map
        (fun e => e.1)).any (fun par => countedBlocks par xp) = true
    · have hxbad : hasProperAncestorIn items xp = true := hblocked_iff.mp hb
      have hfilter' : (done ++ [(xp, xs)]).filter (fun e => !(hasProperAncestorIn items e.1))
          = done.filter (fun e => !(hasProperAncestorIn items e.1)) := by
        rw [List.filter_append]
        rw [show List.filter (fun e => !(hasProperAncestorIn items e.1)) [(xp, xs)]
            = [] from by simp [List.filter, hxbad]]
        rw [List.append_nil]
      have hih := ih (done ++ [(xp, xs)]) hS'
      rw [hfilter'] at hih
      rw [hunf, if_pos hb, hih]
      rw [show List.filter (fun e => !(hasProperAncestorIn items e.1)) ((xp, xs) :: rest)
          = List.filter (fun e => !(hasProperAncestorIn items e.1)) rest from by
        simp [List.filter_cons, hxbad]]
    · have hxgood : hasProperAncestorIn items xp = false := by
        rw [Bool.eq_false_iff]
        intro hx
        exact hb (hblocked_iff.mpr hx)
      have hfilter' : (done ++ [(xp, xs)]).filter (fun e => !(hasProperAncestorIn items e.1))
          = done.filter (fun e => !(hasProperAncestorIn items e.1)) ++ [(xp, xs)] := by
        rw [List.filter_append]
        rw [show List.filter (fun e => !(hasProperAncestorIn items e.1)) [(xp, xs)]
            = [(xp, xs)] from by simp [List.filter, hxgood]]
      have hih := ih (done ++ [(xp, xs)]) hS'
      rw [hfilter', List.map_append] at hih
      have hih2 : totalGo rest
          (((done.filter (fun e => !(hasProperAncestorIn items e.1))).map
            (fun e => e.1)) ++ [xp])
          = sumValues (rest.filter (fun e => !(hasProperAncestorIn items e.1))) := hih
      rw [hunf, if_neg hb, hih2]
      rw [show List.filter (fun e => !(hasProperAncestorIn items e.1)) ((xp, xs) :: rest)
          = (xp, xs) :: List.filter (fun e => !(hasProperAncestorIn items e.1)) rest from by
        simp [List.filter_cons, hxgood]]
      rw [show sumValues ((xp, xs) :: List.filter (fun e => !(hasProperAncestorIn items e.1)) rest)
          = xs + sumValues (List.filter (fun e => !(hasProperAncestorIn items e.1)) rest) from by
        simp [sumValues]]

/-- `_calculate_total_bytes` on any item list with distinct, nonempty keys
returns the sum of exactly the entries with no proper ancestor among the
items. -/
theorem calculate_total_bytes_spec (items : List (FPath × Nat))
    (hnd : (keysOf items).Nodup) (hne : ∀ q ∈ keysOf items, q ≠ []) :
    calculate_total_bytes items
      = sumValues (items.filter (fun e => !(hasProperAncestorIn items e.1))) := by
  have h0 := totalGo_spec items hnd hne
      (List.insertionSort (fun a b => sepCount a.1 ≤ sepCount b.1) items) [] rfl
  have hperm : (List.insertionSort (fun a b => sepCount a.1 ≤ sepCount b.1) items).Perm items :=
    List.perm_insertionSort _ _
  have hfp := (hperm.filter (fun e => !(hasProperAncestorIn items e.1))).map
    (fun e : FPath × Nat => e.2)
  have hsum : sumValues ((List.insertionSort (fun a b => sepCount a.1 ≤ sepCount b.1)
        items).filter (fun e => !(hasProperAncestorIn items e.1)))
      = sumValues (items.filter (fun e => !(hasProperAncestorIn items e.1))) := hfp.sum_eq
  exact h0.trans hsum

/-- Claim C2 (amended) — non-double-counting total in directory mode away
from the filesystem root: for every configuration, threshold, search
directory other than `/` and well-formed tree, the reported total
`_calculate_total_bytes(items_list)` equals the sum of the sizes of exactly
those result entries that have no proper ancestor (by path) also present in
the result list.  For search root `/` itself the property fails: a counted
root entry never blocks its descendants, because the code tests
`abs_path.startswith("/" + os.sep)`, a `"//"` string prefix that no
absolute path has (see the separate root counterexample). -/
theorem dirs_total_no_double_count (cfg : ScanConfig) (th : Nat) (p₀ : FPath) (t : FSTree)
    (hroot : p₀ ≠ []) (hwf : treeWF t = true) :
    calculate_total_bytes (dirItemsList cfg th p₀ t)
      = sumValues ((dirItemsList cfg th p₀ t).filter
          (fun e => !(hasProperAncestorIn (dirItemsList cfg th p₀ t) e.1))) := by
  have h4 : (dirItemsList cfg th p₀ t).Sublist (dirScanTable cfg p₀ t) :=
    List.filter_sublist _
  apply calculate_total_bytes_spec
  · have h1 : (keysOf (walkDirs cfg p₀ t)).Nodup := walk_keys_nodup.1 t cfg p₀ hwf
    have h2 : keysOf (dirScanTable cfg p₀ t) = keysOf (walkDirs cfg p₀ t) :=
      keysOf_foldl_rollup _ _
    have h3 : (keysOf (dirScanTable cfg p₀ t)).Nodup := by rw [h2]; exact h1
    exact List.Nodup.sublist (h4.map (fun e : FPath × Nat => e.1)) h3
  · intro q hq
    have hq2 : q ∈ keysOf (dirScanTable cfg p₀ t) := (h4.map (fun e : FPath × Nat => e.1)).subset hq
    have h2 : keysOf (dirScanTable cfg p₀ t) = keysOf (walkDirs cfg p₀ t) :=
      keysOf_foldl_rollup _ _
    rw [h2] at hq2
    have hpre : p₀ <+: q := walk_keys_structure.1 t cfg p₀ q hq2
    intro hqnil
    rw [hqnil] at hpre
    exact hroot (List.prefix_nil.mp hpre)

theorem dirs_total_no_double_count_witness :
    calculate_total_bytes
        (dirItemsList ⟨[], []⟩ 5 ["r"]
          (.node [("a.txt", some 100)]
            [("d1", .node [("b.bin", some 7)] [("d2", .node [("c.bin", some 5)] [])])]))
      = sumValues ((dirItemsList ⟨[], []⟩ 5 ["r"]
            (.node [("a.txt", some 100)]
              [("d1", .node [("b.bin", some 7)] [("d2", .node [("c.bin", some 5)] [])])])).filter
          (fun e => !(hasProperAncestorIn
            (dirItemsList ⟨[], []⟩ 5 ["r"]
              (.node [("a.txt", some 100)]
                [("d1", .node [("b.bin", some 7)] [("d2", .node [("c.bin", some 5)] [])])]))
            e.1))) :=
  dirs_total_no_double_count ⟨[], []⟩ 5 ["r"]
    (.node [("a.txt", some 100)]
      [("d1", .node [("b.bin", some 7)] [("d2", .node [("c.bin", some 5)] [])])])
    (by decide) (by decide)

/-- Claim C1 fails as originally stated at the reachable search root `/`
(`dirs -d /`): `os.path.dirname("/")` is `"/"` itself, which is in the
table, so the rollup executes `dir_sizes["/"] += dir_sizes["/"]` and doubles
the root's direct size.  With a single 100-byte file directly under `/`, the
visited, non-pruned root's table entry is 200 while the recursive sum of the
sizes of all reachable non-hidden files under it is 100. -/
theorem dirs_rollup_root_counterexample :
    lookupTable (dirScanTable ⟨[], []⟩ [] (.node [("a.txt", some 100)] [])) []
        ≠ some (specRecursiveSize ⟨[], []⟩ [] (.node [("a.txt", some 100)] []))
    ∧ lookupTable (dirScanTable ⟨[], []⟩ [] (.node [("a.txt", some 100)] [])) []
        = some 200
    ∧ specRecursiveSize ⟨[], []⟩ [] (.node [("a.txt", some 100)] []) = 100 := by
  decide

/-- Claim C2 fails as originally stated at the reachable search root `/`
(`dirs -d /`): a counted root entry never blocks its descendants, because
the code tests `abs_path.startswith("/" + os.sep)`, a `"//"` string prefix
no absolute path has.  With a 100-byte file under `/` and a 7-byte file
under `/d1`, both the root result (207, doubled by the rollup root bug) and
its strict descendant `/d1` (7) are summed: the reported total is 214,
although the root is a proper ancestor of `/d1` present in the result list,
so the sum over ancestor-free result entries is 207 — exactly the
parent/child double count the claim rules out. -/
theorem dirs_total_root_counterexample :
    calculate_total_bytes (dirItemsList ⟨[], []⟩ 5 []
          (.node [("a.txt", some 100)] [("d1", .node [("b.bin", some 7)] [])]))
        ≠ sumValues ((dirItemsList ⟨[], []⟩ 5 []
            (.node [("a.txt", some 100)] [("d1", .node [("b.bin", some 7)] [])])).filter
          (fun e => !(hasProperAncestorIn (dirItemsList ⟨[], []⟩ 5 []
              (.node [("a.txt", some 100)] [("d1", .node [("b.bin", some 7)] [])])) e.1)))
    ∧ calculate_total_bytes (dirItemsList ⟨[], []⟩ 5 []
          (.node [("a.txt", some 100)] [("d1", .node [("b.bin", some 7)] [])]))
        = 214
    ∧ sumValues ((dirItemsList ⟨[], []⟩ 5 []
          (.node [("a.txt", some 100)] [("d1", .node [("b.bin", some 7)] [])])).filter
        (fun e => !(hasProperAncestorIn (dirItemsList ⟨[], []⟩ 5 []
            (.node [("a.txt", some 100)] [("d1", .node [("b.bin", some 7)] [])])) e.1)))
        = 207 := by
  decide
